import Mathlib

/-!
Shallow embedding of the repo-therapist History Analyzer
(`src/historian/analyze-history.ts` together with its data types in
`src/historian/types.ts`), and proofs about it.

Modelling conventions:
* JS numbers are modelled as exact arithmetic: integer-valued quantities as
  `ℕ`/`ℤ`, quantities produced by division as `ℚ`.  `Math.round`/`Math.floor`
  become `jsRound`/`Int.floor`.
* ISO date strings are represented by their epoch-millisecond timestamps
  (the source always compares dates via `new Date(...)`/`.getTime()`, and
  `CommitInfo.timestamp` is defined as `new Date(entry.date).getTime()`,
  so the string and the number are interchangeable for every comparison).
* A JS `Record<string, T>` built by insertion is modelled as an association
  list `List (String × T)` in insertion order (`aupsert`/`aget` below);
  `Object.keys/values/entries` become the corresponding list projections.
* `Array.prototype.sort(cmp)` with a two-argument numeric comparator is
  modelled by the stable insertion sort `sortLe` on the corresponding
  boolean relation.
* The wall-clock instant `Date.now()` is threaded explicitly as `now : ℤ`.
-/

/-- JS `Math.round`: round half-up, i.e. `⌊x + 1/2⌋`. -/
def jsRound (x : ℚ) : ℤ := ⌊x + 1/2⌋

theorem jsRound_nonneg {x : ℚ} (hx : 0 ≤ x) : 0 ≤ jsRound x := by
  unfold jsRound
  positivity

theorem jsRound_intCast (n : ℤ) : jsRound (n : ℚ) = n := by
  unfold jsRound
  rw [Int.floor_int_add]
  norm_num

theorem jsRound_natCast (n : ℕ) : jsRound (n : ℚ) = n := by
  simpa using jsRound_intCast (n : ℤ)

theorem abs_jsRound_sub_le (x : ℚ) : |(jsRound x : ℚ) - x| ≤ 1/2 := by
  rw [abs_le]
  constructor
  · have h := Int.lt_floor_add_one (x + 1/2)
    unfold jsRound
    linarith
  · have h := Int.floor_le (x + 1/2)
    unfold jsRound
    linarith

/-- `a.isPrefixOf b` on raw character lists (used to model JS string tests). -/
def charPre : List Char → List Char → Bool
  | [], _ => true
  | _ :: _, [] => false
  | a :: as, b :: bs => a == b && charPre as bs

/-- Substring test on raw character lists. -/
def charHas (pat : List Char) : List Char → Bool
  | [] => charPre pat []
  | c :: rest => charPre pat (c :: rest) || charHas pat rest

/-- JS `String.prototype.includes` (for the non-empty patterns the source uses). -/
def jsIncludes (s pat : String) : Bool := charHas pat.data s.data

/-- JS `String.prototype.endsWith` (for the non-empty patterns the source uses). -/
def jsEndsWith (s pat : String) : Bool := charPre pat.data.reverse s.data.reverse

/-- Stable insertion of `x` into `l`, used by `sortLe`. -/
def insertLe {α : Type} (le : α → α → Bool) (x : α) : List α → List α
  | [] => [x]
  | y :: ys => if le x y then x :: y :: ys else y :: insertLe le x ys

/-- Stable sort by a boolean comparison; models `Array.prototype.sort` with a
numeric comparator (modern JS engines sort stably). -/
def sortLe {α : Type} (le : α → α → Bool) : List α → List α
  | [] => []
  | x :: xs => insertLe le x (sortLe le xs)

theorem insertLe_perm {α : Type} (le : α → α → Bool) (x : α) (l : List α) :
    (insertLe le x l).Perm (x :: l) := by
  induction l with
  | nil => simp [insertLe]
  | cons y ys ih =>
    simp only [insertLe]
    split
    · exact List.Perm.refl _
    · exact (ih.cons y).trans (List.Perm.swap x y ys)

theorem sortLe_perm {α : Type} (le : α → α → Bool) (l : List α) :
    (sortLe le l).Perm l := by
  induction l with
  | nil => exact List.Perm.refl _
  | cons x xs ih => exact (insertLe_perm le x (sortLe le xs)).trans (ih.cons x)

theorem insertLe_pairwise {α : Type} {le : α → α → Bool}
    (htrans : ∀ a b c, le a b = true → le b c = true → le a c = true)
    (htotal : ∀ a b, le a b = true ∨ le b a = true)
    (x : α) {l : List α} (hl : l.Pairwise (fun a b => le a b = true)) :
    (insertLe le x l).Pairwise (fun a b => le a b = true) := by
  induction l with
  | nil => simp [insertLe]
  | cons y ys ih =>
    simp only [insertLe]
    rcases List.pairwise_cons.mp hl with ⟨hy, hys⟩
    split
    · rename_i hxy
      refine List.pairwise_cons.mpr ⟨?_, hl⟩
      intro z hz
      rcases List.mem_cons.mp hz with rfl | hz
      · exact hxy
      · exact htrans x y z hxy (hy _ hz)
    · rename_i hxy
      have hyx : le y x = true := by
        rcases htotal x y with h | h
        · exact absurd h hxy
        · exact h
      refine List.pairwise_cons.mpr ⟨?_, ih hys⟩
      intro z hz
      rcases List.mem_cons.mp ((insertLe_perm le x ys).mem_iff.mp hz) with rfl | hz
      · exact hyx
      · exact hy _ hz

theorem sortLe_pairwise {α : Type} {le : α → α → Bool}
    (htrans : ∀ a b c, le a b = true → le b c = true → le a c = true)
    (htotal : ∀ a b, le a b = true ∨ le b a = true)
    (l : List α) : (sortLe le l).Pairwise (fun a b => le a b = true) := by
  induction l with
  | nil => simp [sortLe]
  | cons x xs ih => exact insertLe_pairwise htrans htotal x ih

/-- Lookup in an insertion-ordered association list (JS `obj[k]`). -/
def aget {β : Type} : List (String × β) → String → Option β
  | [], _ => none
  | p :: rest, k => if p.1 = k then some p.2 else aget rest k

/-- Update-or-append for an insertion-ordered association list: models the JS
idiom `if (!m[k]) m[k] = init; <mutate m[k]>`, where the mutation is `upd`. -/
def aupsert {β : Type} : List (String × β) → String → β → (β → β) → List (String × β)
  | [], k, init, upd => [(k, upd init)]
  | p :: rest, k, init, upd =>
    if p.1 = k then (p.1, upd p.2) :: rest else p :: aupsert rest k init upd

/-- Key list of an association list (JS `Object.keys`). -/
def akeys {β : Type} (l : List (String × β)) : List String := l.map Prod.fst

theorem aget_aupsert_same {β : Type} (l : List (String × β)) (k : String)
    (init : β) (upd : β → β) :
    aget (aupsert l k init upd) k = some (upd ((aget l k).getD init)) := by
  induction l with
  | nil => simp [aget, aupsert]
  | cons p rest ih =>
    by_cases h : p.1 = k
    · simp [aget, aupsert, h]
    · simp [aget, aupsert, h, ih]

theorem akeys_cons {β : Type} (p : String × β) (l : List (String × β)) :
    akeys (p :: l) = p.1 :: akeys l := rfl

theorem aget_aupsert_ne {β : Type} (l : List (String × β)) {k q : String}
    (h : q ≠ k) (init : β) (upd : β → β) :
    aget (aupsert l k init upd) q = aget l q := by
  have h2 : ¬ k = q := fun hh => h hh.symm
  induction l with
  | nil => simp [aget, aupsert, h2]
  | cons p rest ih =>
    obtain ⟨a, b⟩ := p
    by_cases hp : a = k
    · subst hp
      simp [aget, aupsert, h2]
    · by_cases hq : a = q
      · subst hq
        simp [aget, aupsert, hp]
      · simp [aget, aupsert, hp, hq, ih]

theorem akeys_aupsert {β : Type} (l : List (String × β)) (k : String)
    (init : β) (upd : β → β) :
    akeys (aupsert l k init upd) =
      if k ∈ akeys l then akeys l else akeys l ++ [k] := by
  induction l with
  | nil => simp [akeys, aupsert]
  | cons p rest ih =>
    obtain ⟨a, b⟩ := p
    by_cases hak : a = k
    · subst hak
      simp [aupsert, akeys_cons]
    · have hka : ¬ k = a := fun hh => hak hh.symm
      simp only [aupsert, if_neg hak, akeys_cons, ih, List.mem_cons]
      by_cases hm : k ∈ akeys rest
      · simp [hm, hka]
      · simp [hm, hka]

theorem aget_eq_none_iff {β : Type} (l : List (String × β)) (k : String) :
    aget l k = none ↔ k ∉ akeys l := by
  induction l with
  | nil => simp [aget, akeys]
  | cons p rest ih =>
    obtain ⟨a, b⟩ := p
    by_cases h : a = k
    · subst h
      simp [aget, akeys_cons]
    · have h2 : ¬ k = a := fun hh => h hh.symm
      simp [aget, akeys_cons, h, h2, ih]

theorem akeys_aupsert_nodup {β : Type} (l : List (String × β)) (k : String)
    (init : β) (upd : β → β) (h : (akeys l).Nodup) :
    (akeys (aupsert l k init upd)).Nodup := by
  rw [akeys_aupsert]
  split
  · exact h
  · rename_i hk
    simpa [List.nodup_append] using ⟨h, hk⟩

theorem aget_map {β γ : Type} (g : β → γ) (l : List (String × β)) (k : String) :
    aget (l.map (fun p => (p.1, g p.2))) k = (aget l k).map g := by
  induction l with
  | nil => simp [aget]
  | cons p rest ih =>
    by_cases h : p.1 = k <;> simp [aget, h, ih]

theorem akeys_map {β γ : Type} (g : β → γ) (l : List (String × β)) :
    akeys (l.map (fun p => (p.1, g p.2))) = akeys l := by
  simp [akeys, List.map_map, Function.comp]

theorem mem_of_aget {β : Type} {l : List (String × β)} {k : String} {v : β}
    (h : aget l k = some v) : (k, v) ∈ l := by
  induction l with
  | nil => simp [aget] at h
  | cons p rest ih =>
    obtain ⟨a, b⟩ := p
    by_cases hp : a = k
    · subst hp
      simp [aget] at h
      subst h
      exact List.mem_cons_self _ _
    · simp [aget, hp] at h
      exact List.mem_cons_of_mem _ (ih h)

/-- Milliseconds per day (`24 * 60 * 60 * 1000`). -/
def msPerDay : ℤ := 24 * 60 * 60 * 1000

/-- One normalized commit record (`CommitInfo` in `types.ts`).  The ISO `date`
string is represented by `timestamp` (epoch ms); the source derives
`timestamp = new Date(date).getTime()` and performs every date comparison
through `new Date`, so nothing is lost. -/
structure CommitInfo where
  hash : String
  shortHash : String
  author : String
  email : String
  timestamp : ℤ
  message : String
  messageFirstLine : String
  filesChanged : List String
  insertions : ℕ
  deletions : ℕ
  isMerge : Bool
  isRevert : Bool
  isRefactor : Bool
  isFix : Bool
  isFeature : Bool
deriving DecidableEq, Inhabited

/-- Per-file churn statistics (`FileChurn` in `types.ts`); `firstCommit` and
`lastCommit` hold the commits' timestamps (see `CommitInfo`). -/
structure FileChurn where
  path : String
  totalCommits : ℕ
  totalInsertions : ℚ
  totalDeletions : ℚ
  netChange : ℚ
  authors : List String
  authorCount : ℕ
  firstCommit : ℤ
  lastCommit : ℤ
  daysSinceLastChange : ℤ
  commitsLast30Days : ℕ
  commitsLast90Days : ℕ
  churnScore : ℤ
deriving DecidableEq, Inhabited

/-- `calculateChurnScore` (analyze-history.ts:258-278): the running `score`
variable is modelled by the chain `s₁ … s₇`, one `let` per `+=`. -/
def calculateChurnScore (fc : FileChurn) : ℤ :=
  let s₁ : ℚ := min ((fc.totalCommits : ℚ) * 2) 30
  let s₂ : ℚ := s₁ + (if 1 < fc.authorCount then ((fc.authorCount : ℚ) - 1) * 5 else 0)
  let s₃ : ℚ := s₂ + (if 3 < fc.authorCount then 10 else 0)
  let s₄ : ℚ := s₃ + (fc.commitsLast30Days : ℚ) * 3
  let s₅ : ℚ := s₄ + (fc.commitsLast90Days : ℚ) * 1
  let totalChanges : ℚ := fc.totalInsertions + fc.totalDeletions
  let s₆ : ℚ := s₅ + (if 500 < totalChanges then 10 else 0)
  let s₇ : ℚ := s₆ + (if 1000 < totalChanges then 10 else 0)
  jsRound s₇

/-- The fresh record created on first sight of `file` (analyze-history.ts:196-212). -/
def initChurn (c : CommitInfo) (f : String) : FileChurn :=
  { path := f
    totalCommits := 0
    totalInsertions := 0
    totalDeletions := 0
    netChange := 0
    authors := []
    authorCount := 0
    firstCommit := c.timestamp
    lastCommit := c.timestamp
    daysSinceLastChange := 0
    commitsLast30Days := 0
    commitsLast90Days := 0
    churnScore := 0 }

/-- The per-(commit, file) mutation of a churn record (analyze-history.ts:214-237). -/
def updChurn (now : ℤ) (c : CommitInfo) (fc : FileChurn) : FileChurn :=
  { fc with
    totalCommits := fc.totalCommits + 1
    totalInsertions :=
      fc.totalInsertions + (c.insertions : ℚ) / ((max c.filesChanged.length 1 : ℕ) : ℚ)
    totalDeletions :=
      fc.totalDeletions + (c.deletions : ℚ) / ((max c.filesChanged.length 1 : ℕ) : ℚ)
    authors := if c.author ∈ fc.authors then fc.authors else fc.authors ++ [c.author]
    firstCommit := if c.timestamp < fc.firstCommit then c.timestamp else fc.firstCommit
    lastCommit := if fc.lastCommit < c.timestamp then c.timestamp else fc.lastCommit
    commitsLast30Days :=
      if now - 30 * msPerDay < c.timestamp then fc.commitsLast30Days + 1
      else fc.commitsLast30Days
    commitsLast90Days :=
      if now - 90 * msPerDay < c.timestamp then fc.commitsLast90Days + 1
      else fc.commitsLast90Days }

/-- One iteration of the inner `for (const file of commit.filesChanged)` loop. -/
def churnApply (now : ℤ) (m : List (String × FileChurn)) (c : CommitInfo)
    (f : String) : List (String × FileChurn) :=
  aupsert m f (initChurn c f) (updChurn now c)

/-- One iteration of the outer `for (const commit of commits)` loop. -/
def churnStep (now : ℤ) (m : List (String × FileChurn)) (c : CommitInfo) :
    List (String × FileChurn) :=
  c.filesChanged.foldl (fun m f => churnApply now m c f) m

/-- The accumulation pass of `analyzeFileChurn` (analyze-history.ts:194-239). -/
def churnRaw (now : ℤ) (commits : List CommitInfo) : List (String × FileChurn) :=
  commits.foldl (churnStep now) []

/-- The derived-values pass over one record (analyze-history.ts:242-253):
`authorCount`, `netChange` and `daysSinceLastChange` are filled in first,
then `churnScore` is computed from the updated record. -/
def finalizeChurn (now : ℤ) (fc : FileChurn) : FileChurn :=
  let fc1 :=
    { fc with
      authorCount := fc.authors.length
      netChange := fc.totalInsertions - fc.totalDeletions
      daysSinceLastChange := ⌊((now - fc.lastCommit : ℤ) : ℚ) / (msPerDay : ℚ)⌋ }
  { fc1 with churnScore := calculateChurnScore fc1 }

/-- `analyzeFileChurn` (analyze-history.ts:188-256). -/
def analyzeFileChurn (now : ℤ) (commits : List CommitInfo) :
    List (String × FileChurn) :=
  (churnRaw now commits).map (fun p => (p.1, finalizeChurn now p.2))

/-- Per-author statistics (`AuthorStats` in `types.ts`).  `filesOwned` is
declared in the source but never populated by the analyzer. -/
structure AuthorStats where
  name : String
  email : String
  totalCommits : ℕ
  totalInsertions : ℕ
  totalDeletions : ℕ
  filesOwned : List String
  filesContributed : List String
  firstCommit : ℤ
  lastCommit : ℤ
  activeDays : ℤ
  averageCommitsPerDay : ℚ
deriving DecidableEq, Inhabited

/-- The fresh record created on first sight of an author (analyze-history.ts:285-298). -/
def initAuthor (c : CommitInfo) : AuthorStats :=
  { name := c.author
    email := c.email
    totalCommits := 0
    totalInsertions := 0
    totalDeletions := 0
    filesOwned := []
    filesContributed := []
    firstCommit := c.timestamp
    lastCommit := c.timestamp
    activeDays := 0
    averageCommitsPerDay := 0 }

/-- The per-commit mutation of an author record (analyze-history.ts:301-317). -/
def updAuthor (c : CommitInfo) (a : AuthorStats) : AuthorStats :=
  { a with
    totalCommits := a.totalCommits + 1
    totalInsertions := a.totalInsertions + c.insertions
    totalDeletions := a.totalDeletions + c.deletions
    filesContributed :=
      c.filesChanged.foldl (fun l f => if f ∈ l then l else l ++ [f]) a.filesContributed
    firstCommit := if c.timestamp < a.firstCommit then c.timestamp else a.firstCommit
    lastCommit := if a.lastCommit < c.timestamp then c.timestamp else a.lastCommit }

/-- The derived-values pass over one author record (analyze-history.ts:321-333). -/
def finalizeAuthor (a : AuthorStats) : AuthorStats :=
  let daySpan : ℤ := max 1 ⌊((a.lastCommit - a.firstCommit : ℤ) : ℚ) / (msPerDay : ℚ)⌋
  { a with
    activeDays := daySpan
    averageCommitsPerDay :=
      (jsRound ((a.totalCommits : ℚ) / (daySpan : ℚ) * 100) : ℚ) / 100 }

/-- `analyzeAuthorStats` (analyze-history.ts:280-336). -/
def analyzeAuthorStats (commits : List CommitInfo) : List (String × AuthorStats) :=
  (commits.foldl (fun m c => aupsert m c.author (initAuthor c) (updAuthor c)) []).map
    (fun p => (p.1, finalizeAuthor p.2))

/-- The per-author cell of the `fileAuthorCommits` nested record
(analyze-history.ts:345): a commit count and a last-commit timestamp. -/
structure AuthorEntry where
  count : ℕ
  lastCommit : ℤ
deriving DecidableEq, Inhabited

/-- The mutation applied to one `fileAuthorCommits[file][author]` cell
(analyze-history.ts:355-358): increment the count, extend the timestamp. -/
def updEntry (c : CommitInfo) (e : AuthorEntry) : AuthorEntry :=
  { count := e.count + 1
    lastCommit := if e.lastCommit < c.timestamp then c.timestamp else e.lastCommit }

/-- One iteration of the inner file loop of the tally pass
(analyze-history.ts:348-359). -/
def facApply (m : List (String × List (String × AuthorEntry))) (c : CommitInfo)
    (f : String) : List (String × List (String × AuthorEntry)) :=
  aupsert m f []
    (fun inner => aupsert inner c.author ⟨0, c.timestamp⟩ (updEntry c))

/-- One iteration of the outer commit loop of the tally pass. -/
def facStep (m : List (String × List (String × AuthorEntry))) (c : CommitInfo) :
    List (String × List (String × AuthorEntry)) :=
  c.filesChanged.foldl (fun m f => facApply m c f) m

/-- The `fileAuthorCommits` tally of `analyzeFileOwnership`
(analyze-history.ts:345-360). -/
def fileAuthorCommits (commits : List CommitInfo) :
    List (String × List (String × AuthorEntry)) :=
  commits.foldl facStep []

/-- One entry of `FileOwnership.contributors` (`types.ts`); `lastCommit` is
the timestamp of the contributor's most recent commit to the file. -/
structure Contributor where
  author : String
  commits : ℕ
  percent : ℤ
  lastCommit : ℤ
deriving DecidableEq, Inhabited

/-- The full, untruncated contributor list of one file
(analyze-history.ts:367-374): map the author tally to records and sort
descending by commit count (`(a, b) => b.commits - a.commits`). -/
def mkContributors (totalCommits : ℕ) (authorData : List (String × AuthorEntry)) :
    List Contributor :=
  sortLe (fun a b => b.commits ≤ a.commits)
    (authorData.map (fun p =>
      { author := p.1
        commits := p.2.count
        percent := jsRound ((p.2.count : ℚ) / (totalCommits : ℚ) * 100)
        lastCommit := p.2.lastCommit }))

inductive Clarity where
  | clear
  | shared
  | disputed
deriving DecidableEq, Inhabited

/-- The ownership-clarity decision (analyze-history.ts:380-385), evaluated on
the full contributor list: the `disputed` test first, then `shared`,
defaulting to `clear`. -/
def clarityOf (contributors : List Contributor) : Clarity :=
  match contributors with
  | [] => .clear
  | c0 :: rest =>
    if 3 ≤ rest.length + 1 ∧ c0.percent < 50 then .disputed
    else if 2 ≤ rest.length + 1 ∧ c0.percent < 70 then .shared
    else .clear

/-- Per-file ownership record (`FileOwnership` in `types.ts`). -/
structure FileOwnership where
  path : String
  primaryAuthor : Option String
  primaryAuthorPercent : ℤ
  contributors : List Contributor
  ownershipClarity : Clarity
deriving DecidableEq, Inhabited

/-- Build one ownership record (analyze-history.ts:363-393). -/
def mkOwnership (f : String) (fc : FileChurn)
    (authorData : List (String × AuthorEntry)) : FileOwnership :=
  let contributors := mkContributors fc.totalCommits authorData
  { path := f
    primaryAuthor := contributors.head?.map (fun c => c.author)
    primaryAuthorPercent := (contributors.head?.map (fun c => c.percent)).getD 0
    contributors := contributors.take 5
    ownershipClarity := clarityOf contributors }

/-- `analyzeFileOwnership` (analyze-history.ts:338-397). -/
def analyzeFileOwnership (fileChurn : List (String × FileChurn))
    (commits : List CommitInfo) : List (String × FileOwnership) :=
  let fac := fileAuthorCommits commits
  fileChurn.map (fun p => (p.1, mkOwnership p.1 p.2 ((aget fac p.1).getD [])))

inductive Risk where
  | high
  | medium
  | low
deriving DecidableEq, Inhabited

/-- A hot-path record (`HotPath` in `types.ts`). -/
structure HotPath where
  path : String
  reason : String
  churnScore : ℤ
  recentCommits : ℕ
  authorCount : ℕ
  riskLevel : Risk
deriving DecidableEq, Inhabited

/-- The lockfile test of `identifyHotPaths` (analyze-history.ts:404). -/
def isLockfilePath (p : String) : Bool :=
  jsIncludes p "package-lock" || jsIncludes p "yarn.lock"

/-- The body of the `identifyHotPaths` loop for one `(path, churn)` entry
(analyze-history.ts:402-437): `none` when the file is skipped or no reason
fires; the sequential `reasons`/`riskLevel` mutations become `let` chains. -/
def hotPathEntry (path : String) (churn : FileChurn) : Option HotPath :=
  if isLockfilePath path then none
  else
    let reasons₀ : List String := []
    let risk₀ : Risk := .low
    let reasons₁ :=
      if 50 < churn.churnScore then
        reasons₀ ++ ["Very high churn (score: " ++ toString churn.churnScore ++ ")"]
      else if 30 < churn.churnScore then
        reasons₀ ++ ["High churn (score: " ++ toString churn.churnScore ++ ")"]
      else reasons₀
    let risk₁ :=
      if 50 < churn.churnScore then Risk.high
      else if 30 < churn.churnScore then (if risk₀ = .low then .medium else risk₀)
      else risk₀
    let reasons₂ :=
      if 5 ≤ churn.commitsLast30Days then
        reasons₁ ++ [toString churn.commitsLast30Days ++ " commits in last 30 days"]
      else reasons₁
    let risk₂ := if 5 ≤ churn.commitsLast30Days then Risk.high else risk₁
    let reasons₃ :=
      if 4 ≤ churn.authorCount then
        reasons₂ ++ [toString churn.authorCount ++ " different authors"]
      else reasons₂
    let risk₃ :=
      if 4 ≤ churn.authorCount then (if risk₂ = .low then .medium else risk₂)
      else risk₂
    if reasons₃.length = 0 then none
    else
      some
        { path := path
          reason := String.intercalate "; " reasons₃
          churnScore := churn.churnScore
          recentCommits := churn.commitsLast30Days
          authorCount := churn.authorCount
          riskLevel := risk₃ }

/-- `identifyHotPaths` (analyze-history.ts:399-440): collect the qualifying
entries in iteration order, sort descending by churn score, keep 20. -/
def identifyHotPaths (fileChurn : List (String × FileChurn)) : List HotPath :=
  (sortLe (fun a b => b.churnScore ≤ a.churnScore)
    (fileChurn.filterMap (fun p => hotPathEntry p.1 p.2))).take 20

/-- `identifyStableCore` (analyze-history.ts:442-459). -/
def identifyStableCore (fileChurn : List (String × FileChurn)) : List String :=
  ((sortLe (fun a b => a.2.churnScore ≤ b.2.churnScore)
    (fileChurn.filter (fun p =>
      2 ≤ p.2.totalCommits ∧ 60 ≤ p.2.daysSinceLastChange ∧
        p.2.churnScore ≤ 15 ∧
        ¬(jsIncludes p.1 "config" = true) ∧ ¬(jsEndsWith p.1 ".json" = true)))).take
    15).map (fun p => p.1)

inductive EvidenceType where
  | highChurn
  | manyAuthors
  | frequentFixes
  | recentRewrites
  | yoyoChanges
deriving DecidableEq, Inhabited

/-- One evidence item of a fragile file; `type` renders the source's string
tags `"high-churn"`, `"many-authors"`, `"frequent-fixes"`,
`"recent-rewrites"`, `"yo-yo-changes"`. -/
structure Evidence where
  type : EvidenceType
  detail : String
  severity : ℤ
deriving DecidableEq, Inhabited

/-- A fragile-file record (`FragileFile` in `types.ts`). -/
structure FragileFile where
  path : String
  reasons : List String
  evidence : List Evidence
  fragileScore : ℤ
  recommendation : String
deriving DecidableEq, Inhabited

/-- The `fixCommitsPerFile` tally of `identifyFragileFiles`
(analyze-history.ts:469-476). -/
def fixCommitsPerFile (commits : List CommitInfo) : List (String × ℕ) :=
  commits.foldl
    (fun m c =>
      if c.isFix then c.filesChanged.foldl (fun m f => aupsert m f 0 (fun n => n + 1)) m
      else m)
    []

/-- The evidence accumulation of the `identifyFragileFiles` loop body
(analyze-history.ts:480-533): the five independent tests fire in order,
each appending one item. -/
def fragileEvidence (fixes : ℕ) (churn : FileChurn) : List Evidence :=
  let totalChange : ℚ := churn.totalInsertions + churn.totalDeletions
  let e₁ : List Evidence :=
    if 40 < churn.churnScore then
      [{ type := .highChurn
         detail := "Changed " ++ toString churn.totalCommits ++
           " times with churn score " ++ toString churn.churnScore
         severity := min 10 ⌊(churn.churnScore : ℚ) / 5⌋ }]
    else []
  let e₂ :=
    if 4 ≤ churn.authorCount then
      e₁ ++ [{ type := .manyAuthors
               detail := toString churn.authorCount ++
                 " different people have modified this file"
               severity := min 10 (churn.authorCount : ℤ) }]
    else e₁
  let e₃ :=
    if 3 ≤ fixes then
      e₂ ++ [{ type := .frequentFixes
               detail := toString fixes ++ " bug fix commits reference this file"
               severity := min 10 (fixes : ℤ) }]
    else e₂
  let e₄ :=
    if 5 ≤ churn.commitsLast30Days ∧ churn.totalCommits ≤ 10 then
      e₃ ++ [{ type := .recentRewrites
               detail := toString churn.commitsLast30Days ++ " of " ++
                 toString churn.totalCommits ++ " total commits were in last 30 days"
               severity := 7 }]
    else e₃
  if 1000 < totalChange ∧ 5 < churn.totalCommits then
    e₄ ++ [{ type := .yoyoChanges
             detail := toString (jsRound totalChange) ++ " lines changed across " ++
               toString churn.totalCommits ++ " commits"
             severity := min 10 ⌊totalChange / 200⌋ }]
  else e₄

/-- The reason labels accumulated alongside the evidence (same five tests). -/
def fragileReasons (fixes : ℕ) (churn : FileChurn) : List String :=
  let totalChange : ℚ := churn.totalInsertions + churn.totalDeletions
  let r₁ : List String := if 40 < churn.churnScore then ["Frequently rewritten"] else []
  let r₂ := if 4 ≤ churn.authorCount then r₁ ++ ["Unclear ownership"] else r₁
  let r₃ := if 3 ≤ fixes then r₂ ++ ["Bug-prone"] else r₂
  let r₄ :=
    if 5 ≤ churn.commitsLast30Days ∧ churn.totalCommits ≤ 10 then
      r₃ ++ ["Recently volatile"]
    else r₃
  if 1000 < totalChange ∧ 5 < churn.totalCommits then r₄ ++ ["Heavily modified"] else r₄

/-- The sequential recommendation assignment (analyze-history.ts:539-545): the
generic default, overwritten by the author-count rule, overwritten in turn
by the fix-count rule — the later assignment wins. -/
def fragileRecommendation (fixes : ℕ) (churn : FileChurn) : String :=
  let rec₁ := "Review this file for potential refactoring."
  let rec₂ :=
    if 4 ≤ churn.authorCount then
      "Assign clear ownership and document expected behavior."
    else rec₁
  if 3 ≤ fixes then "Add comprehensive tests and consider a rewrite." else rec₂

/-- The body of the `identifyFragileFiles` loop for one `(path, churn)` entry
(analyze-history.ts:479-554), given the fix-commit count: `none`
when no evidence fires, otherwise the assembled record. -/
def fragileEntry (fixes : ℕ) (path : String) (churn : FileChurn) :
    Option FragileFile :=
  let e₅ := fragileEvidence fixes churn
  if e₅.length = 0 then none
  else
    some
      { path := path
        reasons := fragileReasons fixes churn
        evidence := e₅
        fragileScore := e₅.foldl (fun s e => s + e.severity) 0
        recommendation := fragileRecommendation fixes churn }

/-- The pre-sort candidate list of `identifyFragileFiles`: one optional entry
per churn record, in iteration order. -/
def fragileCandidates (fileChurn : List (String × FileChurn))
    (commits : List CommitInfo) : List FragileFile :=
  let fixMap := fixCommitsPerFile commits
  fileChurn.filterMap (fun p => fragileEntry ((aget fixMap p.1).getD 0) p.1 p.2)

/-- `identifyFragileFiles` (analyze-history.ts:461-558).  The `fileOwnership`
argument is received but, as in the source, never used (the local
`ownership` binding there is dead). -/
def identifyFragileFiles (fileChurn : List (String × FileChurn))
    (fileOwnership : List (String × FileOwnership)) (commits : List CommitInfo) :
    List FragileFile :=
  (sortLe (fun a b => b.fragileScore ≤ a.fragileScore)
    (fragileCandidates fileChurn commits)).take 20

inductive PatternType where
  | steady
  | burst
  | sporadic
  | abandoned
  | active
deriving DecidableEq, Inhabited

/-- The busiest 30-day window; the source stores ISO date strings for the
bounds, rendered here by their timestamps. -/
structure BusiestPeriod where
  start : ℤ
  stop : ℤ
  commits : ℕ
deriving DecidableEq, Inhabited

/-- Repository-level commit-pattern summary (`CommitPattern` in `types.ts`). -/
structure CommitPattern where
  type : PatternType
  description : String
  averageCommitsPerWeek : ℚ
  longestGapDays : ℤ
  busiestPeriod : Option BusiestPeriod
deriving DecidableEq, Inhabited

/-- The longest-gap loop of `analyzeCommitPattern` (analyze-history.ts:595-601):
the accumulator is compared against the raw fractional gap and stores the
floored gap. -/
def longestGapAux (acc : ℤ) : List CommitInfo → ℤ
  | a :: b :: rest =>
    let gap : ℚ := ((a.timestamp - b.timestamp : ℤ) : ℚ) / (msPerDay : ℚ)
    longestGapAux (if (acc : ℚ) < gap then ⌊gap⌋ else acc) (b :: rest)
  | _ => acc

/-- The sliding busiest-window loop of `analyzeCommitPattern`
(analyze-history.ts:603-621). -/
def busiestPeriodOf (commits : List CommitInfo) : Option BusiestPeriod :=
  (commits.foldl
    (fun acc c =>
      let windowEnd := c.timestamp
      let windowStart := windowEnd - 30 * msPerDay
      let windowCommits :=
        commits.filter (fun d => windowStart ≤ d.timestamp ∧ d.timestamp ≤ windowEnd)
      if acc.1 < windowCommits.length then
        (windowCommits.length,
          some { start := windowStart, stop := windowEnd, commits := windowCommits.length })
      else acc)
    ((0 : ℕ), (none : Option BusiestPeriod))).2

/-- `analyzeCommitPattern` (analyze-history.ts:560-648).  `commits` is the
extractor's newest-first sequence. -/
def analyzeCommitPattern (now : ℤ) (commits : List CommitInfo) : CommitPattern :=
  match commits with
  | [] =>
    { type := .abandoned
      description := "No commits found"
      averageCommitsPerWeek := 0
      longestGapDays := 0
      busiestPeriod := none }
  | c0 :: rest =>
    let lastCommitAge : ℚ := ((now - c0.timestamp : ℤ) : ℚ) / (msPerDay : ℚ)
    if 180 < lastCommitAge then
      { type := .abandoned
        description := "No commits in " ++ toString ⌊lastCommitAge⌋ ++ " days"
        averageCommitsPerWeek := 0
        longestGapDays := ⌊lastCommitAge⌋
        busiestPeriod := none }
    else
      let firstCommit := (c0 :: rest).getLast (List.cons_ne_nil c0 rest)
      let daySpan : ℚ :=
        max 1 (((c0.timestamp - firstCommit.timestamp : ℤ) : ℚ) / (msPerDay : ℚ))
      let weekSpan : ℚ := daySpan / 7
      let averageCommitsPerWeek : ℚ :=
        (jsRound (((c0 :: rest).length : ℚ) / weekSpan * 10) : ℚ) / 10
      let longestGapDays : ℤ := longestGapAux 0 (c0 :: rest)
      let busiestPeriod := busiestPeriodOf (c0 :: rest)
      if 5 ≤ averageCommitsPerWeek then
        { type := .active
          description := "Highly active with ~" ++ toString averageCommitsPerWeek ++
            " commits/week"
          averageCommitsPerWeek := averageCommitsPerWeek
          longestGapDays := longestGapDays
          busiestPeriod := busiestPeriod }
      else if 1 ≤ averageCommitsPerWeek then
        { type := .steady
          description := "Steady development with ~" ++ toString averageCommitsPerWeek ++
            " commits/week"
          averageCommitsPerWeek := averageCommitsPerWeek
          longestGapDays := longestGapDays
          busiestPeriod := busiestPeriod }
      else if 30 < longestGapDays then
        { type := .sporadic
          description := "Sporadic activity with gaps up to " ++
            toString longestGapDays ++ " days"
          averageCommitsPerWeek := averageCommitsPerWeek
          longestGapDays := longestGapDays
          busiestPeriod := busiestPeriod }
      else
        { type := .burst
          description := "Development in bursts, currently " ++
            (if lastCommitAge < 7 then "active" else "quiet")
          averageCommitsPerWeek := averageCommitsPerWeek
          longestGapDays := longestGapDays
          busiestPeriod := busiestPeriod }

inductive TimelineEventType where
  | commit
  | burst
  | quietPeriod
  | ownershipChange
  | majorRefactor
deriving DecidableEq, Inhabited

/-- One timeline event (`TimelineEvent` in `types.ts`); `type` renders the
source's string tags, and `date` is the event's timestamp. -/
structure TimelineEvent where
  date : ℤ
  type : TimelineEventType
  description : String
  files : Option (List String)
  author : Option String
deriving DecidableEq, Inhabited

/-- The per-commit body of the first `buildTimeline` loop
(analyze-history.ts:657-679): merge commits are skipped; the type and the
sequentially overwritten description follow the source exactly. -/
def mkCommitEvent (c : CommitInfo) : Option TimelineEvent :=
  if c.isMerge then none
  else
    let type₁ : TimelineEventType := if c.isRefactor then .majorRefactor else .commit
    let desc₁ :=
      if c.isRefactor then "Refactor: " ++ c.messageFirstLine else c.messageFirstLine
    let desc₂ :=
      if 10 < c.filesChanged.length then
        "Large change (" ++ toString c.filesChanged.length ++ " files): " ++
          c.messageFirstLine
      else desc₁
    some
      { date := c.timestamp
        type := type₁
        description := desc₂
        files := some (c.filesChanged.take 5)
        author := some c.author }

/-- The quiet-period scan of `buildTimeline` (analyze-history.ts:682-691):
adjacent pairs with a gap over 14 days emit one event dated at the older
commit. -/
def quietEvents : List CommitInfo → List TimelineEvent
  | a :: b :: rest =>
    (let gap : ℚ := ((a.timestamp - b.timestamp : ℤ) : ℚ) / (msPerDay : ℚ)
     if 14 < gap then
       [{ date := b.timestamp
          type := .quietPeriod
          description := toString ⌊gap⌋ ++ " day gap in development"
          files := none
          author := none }]
     else []) ++ quietEvents (b :: rest)
  | _ => []

/-- `buildTimeline` (analyze-history.ts:650-694).  The `fileChurn` argument is
received but, as in the source, never used. -/
def buildTimeline (commits : List CommitInfo)
    (fileChurn : List (String × FileChurn)) : List TimelineEvent :=
  let events := (commits.take 20).filterMap mkCommitEvent ++ quietEvents commits
  sortLe (fun a b => b.date ≤ a.date) events

/-- The aggregate root (`GitHistory` in `types.ts`).  `analyzedAt` holds the
analysis timestamp, `dateRange` the (start, end) commit timestamps. -/
structure GitHistory where
  historyVersion : String
  analyzedAt : ℤ
  repoPath : String
  totalCommits : ℕ
  totalAuthors : ℕ
  firstCommit : Option CommitInfo
  lastCommit : Option CommitInfo
  dateRange : Option (ℤ × ℤ)
  fileChurn : List (String × FileChurn)
  fileOwnership : List (String × FileOwnership)
  authorStats : List (String × AuthorStats)
  hotPaths : List HotPath
  stableCore : List String
  fragileFiles : List FragileFile
  commitPattern : CommitPattern
  recentCommits : List CommitInfo
  timeline : List TimelineEvent
  highChurnFiles : List String
  multiAuthorFiles : List String
  recentlyFragile : List String
deriving DecidableEq, Inhabited

/-- The aggregate built by the success path of `analyzeGitHistory`
(analyze-history.ts:43-111), field for field. -/
def mkGitHistory (now : ℤ) (repoPath : String) (commits : List CommitInfo) :
    GitHistory :=
  let fileChurn := analyzeFileChurn now commits
  let authorStats := analyzeAuthorStats commits
  let fileOwnership := analyzeFileOwnership fileChurn commits
  let hotPaths := identifyHotPaths fileChurn
  let stableCore := identifyStableCore fileChurn
  let fragileFiles := identifyFragileFiles fileChurn fileOwnership commits
  let commitPattern := analyzeCommitPattern now commits
  let timeline := buildTimeline commits fileChurn
  let highChurnFiles :=
    ((sortLe (fun a b => b.churnScore ≤ a.churnScore)
      (fileChurn.map (fun p => p.2))).take 10).map (fun f => f.path)
  let multiAuthorFiles :=
    ((fileChurn.map (fun p => p.2)).filter (fun f => 3 ≤ f.authorCount)).map
      (fun f => f.path)
  let recentlyFragile :=
    ((fragileFiles.filter (fun f => 5 < f.fragileScore)).take 10).map (fun f => f.path)
  { historyVersion := "1.0"
    analyzedAt := now
    repoPath := repoPath
    totalCommits := commits.length
    totalAuthors := authorStats.length
    firstCommit := commits.getLast?
    lastCommit := commits.head?
    dateRange :=
      match commits.getLast?, commits.head? with
      | some first, some last => some (first.timestamp, last.timestamp)
      | _, _ => none
    fileChurn := fileChurn
    fileOwnership := fileOwnership
    authorStats := authorStats
    hotPaths := hotPaths
    stableCore := stableCore
    fragileFiles := fragileFiles
    commitPattern := commitPattern
    recentCommits := commits.take 50
    timeline := timeline
    highChurnFiles := highChurnFiles
    multiAuthorFiles := multiAuthorFiles
    recentlyFragile := recentlyFragile }

/-- The environment observed by one `analyzeGitHistory` run.  `hasGitDir`
models the `fs.existsSync(path.join(repoPath, ".git"))` probe; `log`
models the whole extraction inside the `try` block (`git.log` plus
`processCommits`): `Except.error` stands for any exception the underlying
version-control access throws there, `Except.ok` for the extracted
newest-first commit sequence. -/
structure GitEnv where
  hasGitDir : Bool
  repoPath : String
  now : ℤ
  log : Except Unit (List CommitInfo)

/-- `analyzeGitHistory` (analyze-history.ts:20-119): `none` models the
`null` returns (missing `.git` directory, a thrown extraction error
caught by the surrounding `try/catch`, or `log.total === 0`); otherwise
the complete aggregate is assembled. -/
def analyzeGitHistory (env : GitEnv) : Option GitHistory :=
  if !env.hasGitDir then none
  else
    match env.log with
    | .error _ => none
    | .ok commits =>
      if commits.length = 0 then none
      else some (mkGitHistory env.now env.repoPath commits)

theorem sortLe_length {α : Type} (le : α → α → Bool) (l : List α) :
    (sortLe le l).length = l.length :=
  (sortLe_perm le l).length_eq

theorem sortLe_mem {α : Type} (le : α → α → Bool) (l : List α) (a : α) :
    a ∈ sortLe le l ↔ a ∈ l :=
  (sortLe_perm le l).mem_iff

theorem sortLe_countP {α : Type} (le : α → α → Bool) (p : α → Bool) (l : List α) :
    (sortLe le l).countP p = l.countP p :=
  (sortLe_perm le l).countP_eq p

theorem sortLe_map_sum {α : Type} (le : α → α → Bool) (g : α → ℚ) (l : List α) :
    ((sortLe le l).map g).sum = (l.map g).sum :=
  ((sortLe_perm le l).map g).sum_eq

theorem sortLe_map_sum_nat {α : Type} (le : α → α → Bool) (g : α → ℕ) (l : List α) :
    ((sortLe le l).map g).sum = (l.map g).sum :=
  ((sortLe_perm le l).map g).sum_eq

/-- In a list sorted non-increasingly by `score`, an element of the first `n`
positions is strictly exceeded by fewer than `n` elements of the list. -/
theorem countP_lt_of_mem_take {α : Type} (score : α → ℤ) :
    ∀ {l : List α} {x : α} {n : ℕ},
      l.Pairwise (fun a b => score b ≤ score a) → x ∈ l.take n →
      l.countP (fun y => score x < score y) < n := by
  intro l
  induction l with
  | nil => intro x n _ hx; simp at hx
  | cons a tl ih =>
    intro x n hs hx
    match n with
    | 0 => simp at hx
    | m + 1 =>
      rcases List.pairwise_cons.mp hs with ⟨ha, htl⟩
      rw [List.take_succ_cons] at hx
      rcases List.mem_cons.mp hx with rfl | hx
      · have hz : tl.countP (fun y => score x < score y) = 0 := by
          rw [List.countP_eq_zero]
          intro y hy
          simpa using not_lt.mpr (ha y hy)
        simp [List.countP_cons, hz]
      · have hlt := ih htl hx
        rw [List.countP_cons]
        split <;> omega

/-- The nested commit/file loops, flattened to their (commit, file) pairs. -/
def pairsOf (commits : List CommitInfo) : List (CommitInfo × String) :=
  commits.flatMap (fun c => c.filesChanged.map (fun f => (c, f)))

theorem foldl_pairsOf {σ : Type} (step : σ → CommitInfo × String → σ)
    (commits : List CommitInfo) (s : σ) :
    commits.foldl (fun s c => c.filesChanged.foldl (fun s f => step s (c, f)) s) s =
      (pairsOf commits).foldl step s := by
  induction commits generalizing s with
  | nil => rfl
  | cons c cs ih =>
    simp only [pairsOf, List.flatMap_cons, List.foldl_append, List.foldl_map,
      List.foldl_cons]
    simp only [pairsOf] at ih
    exact ih _

theorem churnRaw_eq_pairs (now : ℤ) (commits : List CommitInfo) :
    churnRaw now commits =
      (pairsOf commits).foldl (fun m p => churnApply now m p.1 p.2) [] :=
  foldl_pairsOf (fun m p => churnApply now m p.1 p.2) commits []

theorem fileAuthorCommits_eq_pairs (commits : List CommitInfo) :
    fileAuthorCommits commits =
      (pairsOf commits).foldl (fun w p => facApply w p.1 p.2) [] :=
  foldl_pairsOf (fun w p => facApply w p.1 p.2) commits []

/-- Total of the per-author commit counts in one file's author tally. -/
def sumCounts (al : List (String × AuthorEntry)) : ℕ :=
  (al.map (fun p => p.2.count)).sum

theorem sumCounts_aupsert (al : List (String × AuthorEntry)) (k : String)
    (c : CommitInfo) :
    sumCounts (aupsert al k ⟨0, c.timestamp⟩ (updEntry c)) = sumCounts al + 1 := by
  induction al with
  | nil => simp [sumCounts, aupsert, updEntry]
  | cons p rest ih =>
    by_cases h : p.1 = k
    · simp [sumCounts, aupsert, h, updEntry]
      ring
    · simp [sumCounts, aupsert, h] at ih ⊢
      omega

/-- Joint invariant tying the churn accumulator to the ownership tally: a file
is present in one iff it is present in the other, the tally's key list is
the churn record's ordered author list, and the tally's counts sum to the
churn record's commit count (which is positive). -/
def ChurnFacInv (m : List (String × FileChurn))
    (w : List (String × List (String × AuthorEntry))) : Prop :=
  ∀ f, (aget m f = none ∧ aget w f = none) ∨
    (∃ fc al, aget m f = some fc ∧ aget w f = some al ∧
      akeys al = fc.authors ∧ sumCounts al = fc.totalCommits ∧ 0 < fc.totalCommits)

theorem churnFacInv_step (now : ℤ) (c : CommitInfo) (f0 : String)
    {m : List (String × FileChurn)} {w : List (String × List (String × AuthorEntry))}
    (h : ChurnFacInv m w) : ChurnFacInv (churnApply now m c f0) (facApply w c f0) := by
  intro f
  by_cases hf : f = f0
  · subst hf
    rw [churnApply, facApply]
    rw [aget_aupsert_same, aget_aupsert_same]
    rcases h f with ⟨h1, h2⟩ | ⟨fc, al, h1, h2, hkeys, hsum, hpos⟩
    · right
      rw [h1, h2]
      refine ⟨_, _, rfl, rfl, ?_, ?_, ?_⟩
      · simp [updChurn, initChurn, akeys, aupsert, updEntry]
      · simp [updChurn, initChurn, sumCounts, aupsert, updEntry]
      · simp [updChurn, initChurn]
    · right
      rw [h1, h2]
      refine ⟨_, _, rfl, rfl, ?_, ?_, ?_⟩
      · rw [Option.getD_some, Option.getD_some, akeys_aupsert, hkeys]
        simp [updChurn]
      · rw [Option.getD_some, Option.getD_some, sumCounts_aupsert, hsum]
        simp [updChurn]
      · simp [updChurn]
  · rw [churnApply, facApply, aget_aupsert_ne _ hf, aget_aupsert_ne _ hf]
    exact h f

theorem churnFacInv_fold (now : ℤ) (ps : List (CommitInfo × String)) :
    ∀ {m : List (String × FileChurn)}
      {w : List (String × List (String × AuthorEntry))}, ChurnFacInv m w →
      ChurnFacInv (ps.foldl (fun m p => churnApply now m p.1 p.2) m)
        (ps.foldl (fun w p => facApply w p.1 p.2) w) := by
  induction ps with
  | nil => intro m w h; exact h
  | cons p rest ih =>
    intro m w h
    exact ih (churnFacInv_step now p.1 p.2 h)

theorem churnFacInv_main (now : ℤ) (commits : List CommitInfo) :
    ChurnFacInv (churnRaw now commits) (fileAuthorCommits commits) := by
  rw [churnRaw_eq_pairs, fileAuthorCommits_eq_pairs]
  exact churnFacInv_fold now (pairsOf commits) (fun f => Or.inl ⟨rfl, rfl⟩)

theorem churnRaw_author_tally {now : ℤ} {commits : List CommitInfo} {f : String}
    {fc : FileChurn} (h : aget (churnRaw now commits) f = some fc) :
    ∃ al, aget (fileAuthorCommits commits) f = some al ∧
      akeys al = fc.authors ∧ sumCounts al = fc.totalCommits ∧ 0 < fc.totalCommits := by
  rcases churnFacInv_main now commits f with ⟨h1, _⟩ | ⟨fc2, al, h1, h2, hk, hs, hp⟩
  · rw [h] at h1; exact absurd h1 (by simp)
  · rw [h] at h1
    have e : fc = fc2 := by injection h1
    subst e
    exact ⟨al, h2, hk, hs, hp⟩

theorem aget_map_keyed {β γ : Type} (g : String → β → γ) (l : List (String × β))
    (k : String) :
    aget (l.map (fun p => (p.1, g p.1 p.2))) k = (aget l k).map (g k) := by
  induction l with
  | nil => simp [aget]
  | cons p rest ih =>
    obtain ⟨a, b⟩ := p
    by_cases h : a = k
    · subst h
      simp [aget]
    · simp [aget, h, ih]

theorem aget_analyzeFileChurn {now : ℤ} {commits : List CommitInfo} {f : String}
    {fc : FileChurn} :
    aget (analyzeFileChurn now commits) f = some fc ↔
      ∃ fc0, aget (churnRaw now commits) f = some fc0 ∧ fc = finalizeChurn now fc0 := by
  unfold analyzeFileChurn
  rw [aget_map]
  cases h : aget (churnRaw now commits) f with
  | none => simp
  | some fc0 => simp [eq_comm]

theorem finalizeChurn_totalCommits (now : ℤ) (fc : FileChurn) :
    (finalizeChurn now fc).totalCommits = fc.totalCommits := rfl

theorem finalizeChurn_authors (now : ℤ) (fc : FileChurn) :
    (finalizeChurn now fc).authors = fc.authors := rfl

theorem finalizeChurn_authorCount (now : ℤ) (fc : FileChurn) :
    (finalizeChurn now fc).authorCount = fc.authors.length := rfl

theorem finalizeChurn_churnScore (now : ℤ) (fc : FileChurn) :
    (finalizeChurn now fc).churnScore = calculateChurnScore (finalizeChurn now fc) := rfl

/-- The churn-score formula exactly as the specification states it (§4.2):
`min(totalCommits*2, 30) + author bonuses + recency weights + size bonuses`,
with `totalChanges = totalInsertions + totalDeletions`. -/
def churnSpecFormula (totalCommits authorCount commitsLast30Days
    commitsLast90Days : ℕ) (totalChanges : ℚ) : ℚ :=
  min ((totalCommits : ℚ) * 2) 30
    + (if 1 < authorCount then ((authorCount : ℚ) - 1) * 5 else 0)
    + (if 3 < authorCount then 10 else 0)
    + (commitsLast30Days : ℚ) * 3
    + (commitsLast90Days : ℚ) * 1
    + (if 500 < totalChanges then 10 else 0)
    + (if 1000 < totalChanges then 10 else 0)

theorem calculateChurnScore_eq_spec (fc : FileChurn) :
    calculateChurnScore fc =
      jsRound (churnSpecFormula fc.totalCommits fc.authorCount fc.commitsLast30Days
        fc.commitsLast90Days (fc.totalInsertions + fc.totalDeletions)) := rfl

theorem churnSpecFormula_nonneg (tc ac c30 c90 : ℕ) (ch : ℚ) :
    0 ≤ churnSpecFormula tc ac c30 c90 ch := by
  unfold churnSpecFormula
  have h1 : (0 : ℚ) ≤ min ((tc : ℚ) * 2) 30 := le_min (by positivity) (by norm_num)
  have h2 : (0 : ℚ) ≤ if 1 < ac then ((ac : ℚ) - 1) * 5 else 0 := by
    split
    · rename_i h
      have : (1 : ℚ) < (ac : ℚ) := by exact_mod_cast h
      nlinarith
    · exact le_refl 0
  have h3 : (0 : ℚ) ≤ if 3 < ac then (10 : ℚ) else 0 := by split <;> norm_num
  have h6 : (0 : ℚ) ≤ if 500 < ch then (10 : ℚ) else 0 := by split <;> norm_num
  have h7 : (0 : ℚ) ≤ if 1000 < ch then (10 : ℚ) else 0 := by split <;> norm_num
  have h4 : (0 : ℚ) ≤ (c30 : ℚ) * 3 := by positivity
  have h5 : (0 : ℚ) ≤ (c90 : ℚ) * 1 := by positivity
  linarith

/-- C1: every churn record produced by `analyzeFileChurn` carries a
`churnScore` equal to `round` of the §4.2 formula applied to its own
`(totalCommits, authorCount, commitsLast30Days, commitsLast90Days,
totalInsertions + totalDeletions)` — hence non-negative and a
deterministic pure function of that tuple — and the formula's rounded
value exceeds any fixed bound for suitable inputs. -/
theorem churnScore_matches_spec_formula :
    (∀ (now : ℤ) (commits : List CommitInfo) (f : String) (fc : FileChurn),
        aget (analyzeFileChurn now commits) f = some fc →
        fc.churnScore =
          jsRound (churnSpecFormula fc.totalCommits fc.authorCount
            fc.commitsLast30Days fc.commitsLast90Days
            (fc.totalInsertions + fc.totalDeletions)) ∧
        0 ≤ fc.churnScore) ∧
    (∀ B : ℤ, ∃ tc ac c30 c90 : ℕ, ∃ ch : ℚ,
        B < jsRound (churnSpecFormula tc ac c30 c90 ch)) := by
  constructor
  · intro now commits f fc h
    rcases aget_analyzeFileChurn.mp h with ⟨fc0, h0, rfl⟩
    constructor
    · rw [finalizeChurn_churnScore, calculateChurnScore_eq_spec]
    · rw [finalizeChurn_churnScore, calculateChurnScore_eq_spec]
      exact jsRound_nonneg (churnSpecFormula_nonneg _ _ _ _ _)
  · intro B
    refine ⟨0, 0, B.toNat + 1, 0, 0, ?_⟩
    have he : churnSpecFormula 0 0 (B.toNat + 1) 0 0 = ((3 * (B.toNat + 1) : ℕ) : ℚ) := by
      unfold churnSpecFormula
      push_cast
      norm_num
      ring
    rw [he, jsRound_natCast]
    have := Int.self_le_toNat B
    omega

/-- A concrete commit used to exercise the theorems on explicit inputs. -/
def demoCommit : CommitInfo :=
  { hash := "h1", shortHash := "h1", author := "alice", email := "alice@x",
    timestamp := 0, message := "m", messageFirstLine := "m",
    filesChanged := ["a.ts"], insertions := 0, deletions := 0,
    isMerge := false, isRevert := false, isRefactor := false, isFix := false,
    isFeature := false }

def c1commits : List CommitInfo := [{ demoCommit with insertions := 10 }]

def c1fc : FileChurn := (aget (analyzeFileChurn 0 c1commits) "a.ts").getD default

/-- C1 witness: the formula theorem applied to a one-commit repository. -/
theorem churnScore_matches_spec_formula_witness :
    aget (analyzeFileChurn 0 c1commits) "a.ts" = some c1fc ∧
      c1fc.churnScore =
        jsRound (churnSpecFormula c1fc.totalCommits c1fc.authorCount
          c1fc.commitsLast30Days c1fc.commitsLast90Days
          (c1fc.totalInsertions + c1fc.totalDeletions)) ∧
      0 ≤ c1fc.churnScore := by
  have h : aget (analyzeFileChurn 0 c1commits) "a.ts" = some c1fc := by
    with_unfolding_all rfl
  exact ⟨h, churnScore_matches_spec_formula.1 0 c1commits "a.ts" c1fc h⟩

theorem aget_analyzeFileOwnership {fileChurn : List (String × FileChurn)}
    {commits : List CommitInfo} {f : String} {o : FileOwnership} :
    aget (analyzeFileOwnership fileChurn commits) f = some o ↔
      ∃ fc, aget fileChurn f = some fc ∧
        o = mkOwnership f fc ((aget (fileAuthorCommits commits) f).getD []) := by
  unfold analyzeFileOwnership
  induction fileChurn with
  | nil => simp [aget]
  | cons p rest ih =>
    obtain ⟨a, b⟩ := p
    by_cases h : a = f
    · subst h
      simp [aget, eq_comm]
    · simp only [List.map_cons, aget, h, if_false, ih]

/-- The rounded percentage of the top-ranked contributor (`contributors[0].percent`,
guarded by the length tests in the source; 0 for an empty list). -/
def topPercent (l : List Contributor) : ℤ := (l.head?.map (fun c => c.percent)).getD 0

theorem clarityOf_spec (l : List Contributor) :
    (clarityOf l = .disputed ↔ 3 ≤ l.length ∧ topPercent l < 50) ∧
    (clarityOf l = .shared ↔
      ¬(3 ≤ l.length ∧ topPercent l < 50) ∧ (2 ≤ l.length ∧ topPercent l < 70)) ∧
    (clarityOf l = .clear ↔
      ¬(3 ≤ l.length ∧ topPercent l < 50) ∧ ¬(2 ≤ l.length ∧ topPercent l < 70)) := by
  cases l with
  | nil => simp [clarityOf, topPercent]
  | cons c0 rest =>
    simp only [clarityOf, topPercent, List.length_cons, List.head?_cons,
      Option.map_some, Option.getD_some]
    by_cases h1 : 3 ≤ rest.length + 1 ∧ c0.percent < 50
    · rw [if_pos h1]
      exact ⟨by simp [h1] <;> omega, by simp [h1] <;> omega, by simp [h1] <;> omega⟩
    · rw [if_neg h1]
      by_cases h2 : 2 ≤ rest.length + 1 ∧ c0.percent < 70
      · rw [if_pos h2]
        exact ⟨by simp [h1] <;> omega, by simp [h1, h2] <;> omega,
          by simp [h2] <;> omega⟩
      · rw [if_neg h2]
        exact ⟨by simp [h1] <;> omega, by simp [h2] <;> omega,
          by simp [h1, h2] <;> omega⟩

theorem mkContributors_sorted (totalCommits : ℕ)
    (authorData : List (String × AuthorEntry)) :
    (mkContributors totalCommits authorData).Pairwise
      (fun a b => b.commits ≤ a.commits) := by
  have h := @sortLe_pairwise Contributor (fun a b => b.commits ≤ a.commits)
    (fun a b c hab hbc => by
      simp only [decide_eq_true_eq] at hab hbc ⊢
      omega)
    (fun a b => by
      by_cases h : b.commits ≤ a.commits
      · left; simpa using h
      · right; simp; omega)
    ((authorData.map (fun p =>
      ({ author := p.1
         commits := p.2.count
         percent := jsRound ((p.2.count : ℚ) / (totalCommits : ℚ) * 100)
         lastCommit := p.2.lastCommit } : Contributor))))
  unfold mkContributors
  exact h.imp (fun hab => by simpa using hab)

/-- C2: the clarity verdict of every ownership record is `disputed` exactly
when the full contributor set has at least 3 members and the top rounded
percentage is below 50, else `shared` exactly when it has at least 2
members and the top percentage is below 70, else `clear`; the decision
reads the full (untruncated) sorted contributor list while the record
retains only its first 5 entries. -/
theorem ownership_clarity_spec :
    ∀ (fileChurn : List (String × FileChurn)) (commits : List CommitInfo)
      (f : String) (fc : FileChurn) (o : FileOwnership),
      aget fileChurn f = some fc →
      aget (analyzeFileOwnership fileChurn commits) f = some o →
      (let full :=
        mkContributors fc.totalCommits ((aget (fileAuthorCommits commits) f).getD [])
       o.contributors = full.take 5 ∧
       full.Pairwise (fun a b => b.commits ≤ a.commits) ∧
       (o.ownershipClarity = .disputed ↔ 3 ≤ full.length ∧ topPercent full < 50) ∧
       (o.ownershipClarity = .shared ↔
         ¬(3 ≤ full.length ∧ topPercent full < 50) ∧
           (2 ≤ full.length ∧ topPercent full < 70)) ∧
       (o.ownershipClarity = .clear ↔
         ¬(3 ≤ full.length ∧ topPercent full < 50) ∧
           ¬(2 ≤ full.length ∧ topPercent full < 70))) := by
  intro fileChurn commits f fc o h1 h2
  rcases aget_analyzeFileOwnership.mp h2 with ⟨fc2, h1b, rfl⟩
  rw [h1] at h1b
  have e : fc2 = fc := by injection h1b with e; exact e.symm
  subst e
  refine ⟨rfl, mkContributors_sorted _ _, ?_⟩
  exact clarityOf_spec
    (mkContributors fc2.totalCommits ((aget (fileAuthorCommits commits) f).getD []))

def c2commits : List CommitInfo :=
  [{ demoCommit with author := "x", email := "x@x", timestamp := 5, filesChanged := ["f"] },
   { demoCommit with author := "x", email := "x@x", timestamp := 4, filesChanged := ["f"] },
   { demoCommit with author := "y", email := "y@x", timestamp := 3, filesChanged := ["f"] },
   { demoCommit with author := "y", email := "y@x", timestamp := 2, filesChanged := ["f"] },
   { demoCommit with author := "z", email := "z@x", timestamp := 1, filesChanged := ["f"] }]

def c2churn : List (String × FileChurn) := analyzeFileChurn 10 c2commits

def c2fc : FileChurn := (aget c2churn "f").getD default

def c2o : FileOwnership := (aget (analyzeFileOwnership c2churn c2commits) "f").getD default

/-- C2 witness: the clarity theorem applied to a five-commit, three-author file. -/
theorem ownership_clarity_spec_witness :
    aget c2churn "f" = some c2fc ∧
      aget (analyzeFileOwnership c2churn c2commits) "f" = some c2o ∧
      (let full :=
        mkContributors c2fc.totalCommits ((aget (fileAuthorCommits c2commits) "f").getD [])
       c2o.contributors = full.take 5 ∧
       full.Pairwise (fun a b => b.commits ≤ a.commits) ∧
       (c2o.ownershipClarity = .disputed ↔ 3 ≤ full.length ∧ topPercent full < 50) ∧
       (c2o.ownershipClarity = .shared ↔
         ¬(3 ≤ full.length ∧ topPercent full < 50) ∧
           (2 ≤ full.length ∧ topPercent full < 70)) ∧
       (c2o.ownershipClarity = .clear ↔
         ¬(3 ≤ full.length ∧ topPercent full < 50) ∧
           ¬(2 ≤ full.length ∧ topPercent full < 70))) := by
  have ha : aget c2churn "f" = some c2fc := by with_unfolding_all rfl
  have hb : aget (analyzeFileOwnership c2churn c2commits) "f" = some c2o := by
    with_unfolding_all rfl
  exact ⟨ha, hb, ownership_clarity_spec c2churn c2commits "f" c2fc c2o ha hb⟩

/-- C6: `analyzeGitHistory` yields the typed "unavailable" result (`none`) in
exactly three situations — no version-control directory, a throwing
extraction, or an empty commit log — and in every other situation it
yields the complete aggregate built by `mkGitHistory`.  The embedding is a
total function, so no exception escapes in any of these cases. -/
theorem analyzeGitHistory_unavailable_or_complete :
    ∀ env : GitEnv,
      (analyzeGitHistory env = none ↔
        env.hasGitDir = false ∨ env.log = .error () ∨ env.log = .ok []) ∧
      (∀ commits : List CommitInfo, env.log = .ok commits → commits ≠ [] →
        env.hasGitDir = true →
        analyzeGitHistory env = some (mkGitHistory env.now env.repoPath commits)) := by
  intro env
  obtain ⟨gd, rp, now, log⟩ := env
  constructor
  · cases gd
    · simp [analyzeGitHistory]
    · cases log with
      | error e =>
        cases e
        simp [analyzeGitHistory]
      | ok commits =>
        by_cases h : commits.length = 0
        · have he : commits = [] := List.length_eq_zero.mp h
          subst he
          simp [analyzeGitHistory]
        · have he : ¬ commits = [] := fun hh => h (by rw [hh]; rfl)
          simp [analyzeGitHistory, h, he]
  · intro commits hlog hne hgd
    subst hgd
    subst hlog
    have h : ¬ commits.length = 0 := fun hh => hne (List.length_eq_zero.mp hh)
    simp [analyzeGitHistory, h]

def c6env : GitEnv :=
  { hasGitDir := true, repoPath := "r", now := 0, log := .ok [demoCommit] }

/-- C6 witness: the case theorem applied to a concrete one-commit environment. -/
theorem analyzeGitHistory_unavailable_or_complete_witness :
    analyzeGitHistory c6env =
      some (mkGitHistory c6env.now c6env.repoPath [demoCommit]) :=
  (analyzeGitHistory_unavailable_or_complete c6env).2 [demoCommit] rfl
    (by simp) rfl

/-- C7: the pattern classifier returns `abandoned` for an empty commit list
and whenever the newest commit is more than 180 days old, regardless of
frequency; otherwise it classifies by `averageCommitsPerWeek ≥ 5`
(`active`), else `≥ 1` (`steady`), else by the longest floored gap between
chronologically adjacent commits exceeding 30 days (`sporadic`), else
`burst` — and `longestGapDays` is exactly that adjacent-gap scan. -/
theorem commitPattern_classification :
    ∀ (now : ℤ) (commits : List CommitInfo),
      (commits = [] → (analyzeCommitPattern now commits).type = .abandoned) ∧
      (∀ c0 rest, commits = c0 :: rest →
        (180 < ((now - c0.timestamp : ℤ) : ℚ) / (msPerDay : ℚ) →
          (analyzeCommitPattern now commits).type = .abandoned) ∧
        (¬(180 < ((now - c0.timestamp : ℤ) : ℚ) / (msPerDay : ℚ)) →
          (let p := analyzeCommitPattern now commits
           p.longestGapDays = longestGapAux 0 (c0 :: rest) ∧
           p.type ≠ .abandoned ∧
           (p.type = .active ↔ 5 ≤ p.averageCommitsPerWeek) ∧
           (p.type = .steady ↔
             ¬(5 ≤ p.averageCommitsPerWeek) ∧ 1 ≤ p.averageCommitsPerWeek) ∧
           (p.type = .sporadic ↔
             ¬(5 ≤ p.averageCommitsPerWeek) ∧ ¬(1 ≤ p.averageCommitsPerWeek) ∧
               30 < p.longestGapDays) ∧
           (p.type = .burst ↔
             ¬(5 ≤ p.averageCommitsPerWeek) ∧ ¬(1 ≤ p.averageCommitsPerWeek) ∧
               ¬(30 < p.longestGapDays))))) := by
  intro now commits
  constructor
  · intro h
    subst h
    rfl
  · intro c0 rest hc
    subst hc
    constructor
    · intro h180
      simp only [analyzeCommitPattern]
      rw [if_pos h180]
    · intro h180
      simp only [analyzeCommitPattern]
      rw [if_neg h180]
      split_ifs with h5 hone hgap <;> simp_all

def c7old : CommitInfo := { demoCommit with timestamp := -(200 * msPerDay) }

/-- C7 witness: the classifier theorem applied to an empty history, to a
200-day-old single commit, and to a fresh single commit. -/
theorem commitPattern_classification_witness :
    (analyzeCommitPattern 0 ([] : List CommitInfo)).type = .abandoned ∧
    (analyzeCommitPattern 0 [c7old]).type = .abandoned ∧
    ((analyzeCommitPattern 0 [demoCommit]).type = .active ↔
      5 ≤ (analyzeCommitPattern 0 [demoCommit]).averageCommitsPerWeek) := by
  refine ⟨(commitPattern_classification 0 []).1 rfl, ?_, ?_⟩
  · exact ((commitPattern_classification 0 [c7old]).2 c7old [] rfl).1
      (by with_unfolding_all decide)
  · exact (((commitPattern_classification 0 [demoCommit]).2 demoCommit [] rfl).2
      (by with_unfolding_all decide)).2.2.1

theorem hotPathEntry_isSome (p : String) (c : FileChurn)
    (hl : isLockfilePath p = false) :
    (hotPathEntry p c).isSome = true ↔
      (30 < c.churnScore ∨ 5 ≤ c.commitsLast30Days ∨ 4 ≤ c.authorCount) := by
  simp only [hotPathEntry, hl, Bool.false_eq_true, if_false]
  split_ifs <;> simp_all <;> omega

theorem hotPathEntry_fields (p : String) (c : FileChurn) (h : HotPath)
    (hl : isLockfilePath p = false) (he : hotPathEntry p c = some h) :
    h.path = p ∧ h.churnScore = c.churnScore ∧
    h.recentCommits = c.commitsLast30Days ∧ h.authorCount = c.authorCount ∧
    (h.riskLevel = .high ↔ 50 < c.churnScore ∨ 5 ≤ c.commitsLast30Days) ∧
    (h.riskLevel = .medium ↔ ¬(50 < c.churnScore ∨ 5 ≤ c.commitsLast30Days)) ∧
    h.riskLevel ≠ .low := by
  simp only [hotPathEntry, hl, Bool.false_eq_true, if_false] at he
  split_ifs at he <;>
    first
      | (injection he with hh; subst hh;
         refine ⟨rfl, rfl, rfl, rfl, ?_, ?_, ?_⟩ <;> simp_all <;> omega)
      | simp_all

theorem hotPathEntry_none_of_lockfile (p : String) (c : FileChurn)
    (hl : isLockfilePath p = true) : hotPathEntry p c = none := by
  simp [hotPathEntry, hl]

/-- C8: a non-lockfile file yields a hot-path candidate exactly when its churn
score exceeds 30, or it has at least 5 commits in the trailing 30 days, or
at least 4 authors; the resulting risk level is `high` exactly when the
score exceeds 50 or the 30-day count is at least 5 (so a later, weaker
clause never downgrades it), `medium` otherwise, never `low`; and the
emitted list is sorted descending by churn score and capped at 20. -/
theorem hotPaths_rule :
    (∀ (p : String) (c : FileChurn),
        (hotPathEntry p c).isSome = true ↔
          isLockfilePath p = false ∧
            (30 < c.churnScore ∨ 5 ≤ c.commitsLast30Days ∨ 4 ≤ c.authorCount)) ∧
    (∀ (p : String) (c : FileChurn) (h : HotPath), hotPathEntry p c = some h →
        h.path = p ∧ h.churnScore = c.churnScore ∧
        h.recentCommits = c.commitsLast30Days ∧ h.authorCount = c.authorCount ∧
        (h.riskLevel = .high ↔ 50 < c.churnScore ∨ 5 ≤ c.commitsLast30Days) ∧
        (h.riskLevel = .medium ↔ ¬(50 < c.churnScore ∨ 5 ≤ c.commitsLast30Days)) ∧
        h.riskLevel ≠ .low) ∧
    (∀ fileChurn : List (String × FileChurn),
        (identifyHotPaths fileChurn).Pairwise
          (fun a b => b.churnScore ≤ a.churnScore) ∧
        (identifyHotPaths fileChurn).length ≤ 20 ∧
        (∀ h ∈ identifyHotPaths fileChurn,
          ∃ pc ∈ fileChurn, hotPathEntry pc.1 pc.2 = some h)) := by
  refine ⟨?_, ?_, ?_⟩
  · intro p c
    by_cases hl : isLockfilePath p = true
    · simp [hotPathEntry_none_of_lockfile p c hl, hl]
    · have hl2 : isLockfilePath p = false := by simpa using hl
      rw [hotPathEntry_isSome p c hl2]
      simp [hl2]
  · intro p c h he
    by_cases hl : isLockfilePath p = true
    · rw [hotPathEntry_none_of_lockfile p c hl] at he
      exact absurd he (by simp)
    · have hl2 : isLockfilePath p = false := by simpa using hl
      exact hotPathEntry_fields p c h hl2 he
  · intro fileChurn
    refine ⟨?_, ?_, ?_⟩
    · have hs := @sortLe_pairwise HotPath (fun a b => b.churnScore ≤ a.churnScore)
        (fun a b c hab hbc => by
          simp only [decide_eq_true_eq] at hab hbc ⊢
          omega)
        (fun a b => by
          by_cases hab : b.churnScore ≤ a.churnScore
          · left; simpa using hab
          · right; simp; omega)
        (fileChurn.filterMap (fun p => hotPathEntry p.1 p.2))
      unfold identifyHotPaths
      exact (List.Pairwise.sublist (List.take_sublist _ _) hs).imp
        (fun hab => by simpa using hab)
    · unfold identifyHotPaths
      exact List.length_take_le _ _
    · intro h hmem
      simp only [identifyHotPaths] at hmem
      have h1 : h ∈ sortLe (fun a b => b.churnScore ≤ a.churnScore)
          (fileChurn.filterMap (fun p => hotPathEntry p.1 p.2)) :=
        List.mem_of_mem_take hmem
      have h2 : h ∈ fileChurn.filterMap (fun p => hotPathEntry p.1 p.2) :=
        (sortLe_mem _ _ _).mp h1
      rcases List.mem_filterMap.mp h2 with ⟨pc, hpc, hsome⟩
      exact ⟨pc, hpc, hsome⟩

def c8fc : FileChurn :=
  { (default : FileChurn) with
    path := "hot.ts", churnScore := 60, commitsLast30Days := 6 }

def c8h : HotPath := (hotPathEntry "hot.ts" c8fc).getD default

/-- C8 witness: the hot-path theorem applied to a concrete high-churn record. -/
theorem hotPaths_rule_witness :
    hotPathEntry "hot.ts" c8fc = some c8h ∧
    ((hotPathEntry "hot.ts" c8fc).isSome = true ↔
      isLockfilePath "hot.ts" = false ∧
        (30 < c8fc.churnScore ∨ 5 ≤ c8fc.commitsLast30Days ∨ 4 ≤ c8fc.authorCount)) ∧
    (c8h.riskLevel = .high ↔ 50 < c8fc.churnScore ∨ 5 ≤ c8fc.commitsLast30Days) ∧
    c8h.riskLevel ≠ .low := by
  have he : hotPathEntry "hot.ts" c8fc = some c8h := by with_unfolding_all rfl
  exact ⟨he, hotPaths_rule.1 "hot.ts" c8fc,
    (hotPaths_rule.2.1 "hot.ts" c8fc c8h he).2.2.2.2.1,
    (hotPaths_rule.2.1 "hot.ts" c8fc c8h he).2.2.2.2.2.2⟩

/-- Commit-derived timeline events (type `commit` or `major-refactor`). -/
def isCommitEvent (e : TimelineEvent) : Bool :=
  e.type = TimelineEventType.commit || e.type = TimelineEventType.majorRefactor

theorem quietEvents_type :
    ∀ (l : List CommitInfo) (e : TimelineEvent), e ∈ quietEvents l →
      e.type = .quietPeriod := by
  intro l
  induction l with
  | nil => simp [quietEvents]
  | cons a rest ih =>
    cases rest with
    | nil => simp [quietEvents]
    | cons b rest2 =>
      intro e he
      simp only [quietEvents] at he
      rcases List.mem_append.mp he with hL | hR
      · split at hL
        · rcases List.mem_singleton.mp hL with rfl
          rfl
        · simp at hL
      · exact ih e hR

theorem countP_filterMap_mkCommitEvent (q : TimelineEventType → Bool)
    (g : CommitInfo → Bool)
    (hmerge : ∀ c : CommitInfo, c.isMerge = true → g c = false)
    (hok : ∀ c : CommitInfo, c.isMerge = false →
      q (if c.isRefactor = true then TimelineEventType.majorRefactor
         else TimelineEventType.commit) = g c) :
    ∀ l : List CommitInfo,
      (l.filterMap mkCommitEvent).countP (fun e => q e.type) = l.countP g := by
  intro l
  induction l with
  | nil => rfl
  | cons c rest ih =>
    cases hm : c.isMerge with
    | true =>
      have hn : mkCommitEvent c = none := by simp [mkCommitEvent, hm]
      rw [List.filterMap_cons, hn, List.countP_cons, ih, hmerge c hm]
      simp
    | false =>
      have hs : mkCommitEvent c = some
          { date := c.timestamp
            type := if c.isRefactor = true then TimelineEventType.majorRefactor
              else TimelineEventType.commit
            description :=
              if 10 < c.filesChanged.length then
                "Large change (" ++ toString c.filesChanged.length ++ " files): " ++
                  c.messageFirstLine
              else if c.isRefactor then "Refactor: " ++ c.messageFirstLine
                else c.messageFirstLine
            files := some (c.filesChanged.take 5)
            author := some c.author } := by
        simp only [mkCommitEvent, hm, Bool.false_eq_true, if_false]
      rw [List.filterMap_cons, hs, List.countP_cons, List.countP_cons, ih, hok c hm]

/-- C4 counterexample: 21 commits whose most recent one is a merge; the input
contains 20 non-merge commits, yet only 19 commit/major-refactor events
are emitted, because the source slices the 20 most recent commits before
discarding merges. -/
def c4commits : List CommitInfo :=
  (List.range 21).map (fun i =>
    { demoCommit with
      hash := toString i, timestamp := -(i : ℤ), isMerge := decide (i = 0) })

/-- C4 counterexample theorem: the claim "at least 20 non-merge commits give
exactly 20 commit events, merges among the most recent notwithstanding"
fails on `c4commits`. -/
theorem buildTimeline_c4_counterexample :
    20 ≤ c4commits.countP (fun c => !c.isMerge) ∧
      (buildTimeline c4commits []).countP isCommitEvent = 19 := by
  with_unfolding_all decide

/-- C4 (amended): the timeline builder slices the 20 most recent commits and
emits one event for each non-merge commit among them — `major-refactor`
exactly for the refactor-flagged ones, `commit` for the rest — so merge
commits inside that slice do reduce the emitted commit-event count. -/
theorem buildTimeline_take20_counts :
    ∀ (commits : List CommitInfo) (fileChurn : List (String × FileChurn)),
      (buildTimeline commits fileChurn).countP
          (fun e => e.type = TimelineEventType.majorRefactor) =
        (commits.take 20).countP (fun c => !c.isMerge && c.isRefactor) ∧
      (buildTimeline commits fileChurn).countP
          (fun e => e.type = TimelineEventType.commit) =
        (commits.take 20).countP (fun c => !c.isMerge && !c.isRefactor) ∧
      (buildTimeline commits fileChurn).countP isCommitEvent =
        (commits.take 20).countP (fun c => !c.isMerge) := by
  intro commits fileChurn
  refine ⟨?_, ?_, ?_⟩
  · rw [buildTimeline, sortLe_countP, List.countP_append]
    rw [countP_filterMap_mkCommitEvent
      (fun t => t = TimelineEventType.majorRefactor)
      (fun c => !c.isMerge && c.isRefactor)
      (fun c hc => by simp [hc]) (fun c hc => by cases hr : c.isRefactor <;> simp [hc, hr])]
    have h0 : (quietEvents commits).countP
        (fun e => decide (e.type = TimelineEventType.majorRefactor)) = 0 := by
      rw [List.countP_eq_zero]
      intro e he
      simp [quietEvents_type commits e he]
    rw [h0]
    omega
  · rw [buildTimeline, sortLe_countP, List.countP_append]
    rw [countP_filterMap_mkCommitEvent
      (fun t => t = TimelineEventType.commit)
      (fun c => !c.isMerge && !c.isRefactor)
      (fun c hc => by simp [hc]) (fun c hc => by cases hr : c.isRefactor <;> simp [hc, hr])]
    have h0 : (quietEvents commits).countP
        (fun e => decide (e.type = TimelineEventType.commit)) = 0 := by
      rw [List.countP_eq_zero]
      intro e he
      simp [quietEvents_type commits e he]
    rw [h0]
    omega
  · rw [buildTimeline, sortLe_countP, List.countP_append]
    rw [show isCommitEvent = (fun e => (fun t =>
        (t = TimelineEventType.commit || t = TimelineEventType.majorRefactor : Bool))
        e.type) from rfl]
    rw [countP_filterMap_mkCommitEvent
      (fun t => (t = TimelineEventType.commit || t = TimelineEventType.majorRefactor))
      (fun c => !c.isMerge)
      (fun c hc => by simp [hc]) (fun c hc => by cases hr : c.isRefactor <;> simp [hc, hr])]
    have h0 : (quietEvents commits).countP (fun e => (fun t =>
        (t = TimelineEventType.commit || t = TimelineEventType.majorRefactor : Bool))
        e.type) = 0 := by
      rw [List.countP_eq_zero]
      intro e he
      simp [quietEvents_type commits e he]
    rw [h0]
    omega

theorem fragileEntry_recommendation (fixes : ℕ) (p : String) (churn : FileChurn)
    (y : FragileFile) (he : fragileEntry fixes p churn = some y) :
    y.path = p ∧
      y.recommendation =
        (if 3 ≤ fixes then "Add comprehensive tests and consider a rewrite."
         else if 4 ≤ churn.authorCount then
           "Assign clear ownership and document expected behavior."
         else "Review this file for potential refactoring.") := by
  simp only [fragileEntry] at he
  by_cases hL : (fragileEvidence fixes churn).length = 0
  · rw [if_pos hL] at he
    exact absurd he (by simp)
  · rw [if_neg hL] at he
    injection he with hh
    subst hh
    exact ⟨rfl, rfl⟩

/-- C3 counterexample input: one file touched by four distinct authors, three
of the commits being fix-classified, far in the past relative to the
analysis time. -/
def c3commits : List CommitInfo :=
  [{ demoCommit with author := "a", timestamp := 4, filesChanged := ["f"], isFix := true },
   { demoCommit with author := "b", timestamp := 3, filesChanged := ["f"], isFix := true },
   { demoCommit with author := "c", timestamp := 2, filesChanged := ["f"], isFix := true },
   { demoCommit with author := "d", timestamp := 1, filesChanged := ["f"] }]

def c3churn : List (String × FileChurn) := analyzeFileChurn (200 * msPerDay) c3commits

/-- C3 counterexample: the file has author count 4 and fix count 3, yet its
recommendation is the tests-plus-rewrite text, not the
assign-clear-ownership text the claim's first-match order would dictate:
the source's second `if` overwrites the first. -/
theorem fragile_recommendation_c3_counterexample :
    (aget c3churn "f").map (fun fc => fc.authorCount) = some 4 ∧
      aget (fixCommitsPerFile c3commits) "f" = some 3 ∧
      (identifyFragileFiles c3churn (analyzeFileOwnership c3churn c3commits)
          c3commits).map (fun y => (y.path, y.recommendation)) =
        [("f", "Add comprehensive tests and consider a rewrite.")] := by
  with_unfolding_all decide

/-- C3 (amended): the recommendation of every fragile file is chosen with the
fix-count rule taking precedence: at least 3 fix commits give the
tests-plus-rewrite text (even when the author count is also ≥ 4); else
author count ≥ 4 gives the assign-clear-ownership text; else the generic
review text. -/
theorem fragile_recommendation_priority :
    (∀ (fixes : ℕ) (p : String) (churn : FileChurn) (y : FragileFile),
        fragileEntry fixes p churn = some y →
        y.path = p ∧
          y.recommendation =
            (if 3 ≤ fixes then "Add comprehensive tests and consider a rewrite."
             else if 4 ≤ churn.authorCount then
               "Assign clear ownership and document expected behavior."
             else "Review this file for potential refactoring.")) ∧
    (∀ (fileChurn : List (String × FileChurn))
        (fileOwnership : List (String × FileOwnership)) (commits : List CommitInfo)
        (y : FragileFile),
        y ∈ identifyFragileFiles fileChurn fileOwnership commits →
        ∃ pc ∈ fileChurn,
          fragileEntry ((aget (fixCommitsPerFile commits) pc.1).getD 0) pc.1 pc.2 =
            some y) := by
  constructor
  · exact fragileEntry_recommendation
  · intro fileChurn fileOwnership commits y hmem
    simp only [identifyFragileFiles] at hmem
    have h1 := List.mem_of_mem_take hmem
    have h2 := (sortLe_mem _ _ _).mp h1
    simp only [fragileCandidates] at h2
    exact List.mem_filterMap.mp h2

/-- C3 witness: the priority theorem applied to the counterexample file. -/
theorem fragile_recommendation_priority_witness :
    (let y := ((identifyFragileFiles c3churn (analyzeFileOwnership c3churn c3commits)
        c3commits).head?).getD default
     y.path = "f" ∧
       y.recommendation =
         (if 3 ≤ (3 : ℕ) then "Add comprehensive tests and consider a rewrite."
          else if 4 ≤ ((aget c3churn "f").getD default).authorCount then
            "Assign clear ownership and document expected behavior."
          else "Review this file for potential refactoring.")) := by
  exact fragile_recommendation_priority.1 3 "f" ((aget c3churn "f").getD default) _
    (by with_unfolding_all rfl)

theorem jsRound_le_intCast {x : ℚ} {n : ℤ} (h : x ≤ (n : ℚ)) : jsRound x ≤ n := by
  unfold jsRound
  by_contra hc
  push_neg at hc
  have h1 : ((n + 1 : ℤ) : ℚ) ≤ (⌊x + 1/2⌋ : ℚ) := by exact_mod_cast hc
  have h2 := Int.floor_le (x + 1/2)
  push_cast at h1
  linarith

theorem mkContributors_length (totalCommits : ℕ)
    (authorData : List (String × AuthorEntry)) :
    (mkContributors totalCommits authorData).length = authorData.length := by
  unfold mkContributors
  rw [sortLe_length, List.length_map]

/-- C5 counterexample input: one recent commit with 1200 inserted lines. -/
def c5commits : List CommitInfo := [{ demoCommit with insertions := 1200 }]

def c5churn : List (String × FileChurn) := analyzeFileChurn 0 c5commits

/-- C5 counterexample: the produced record has exactly one author and one
commit, yet its churn score is 26 (the commit is inside both recency
windows and its 1200 changed lines trigger both size bonuses), refuting
the claimed unconditional bound of 2. -/
theorem churn_single_commit_c5_counterexample :
    (aget c5churn "a.ts").map
        (fun fc => (fc.totalCommits, fc.authorCount, fc.churnScore)) =
      some (1, 1, 26) ∧ ¬((26 : ℤ) ≤ 2) := by
  with_unfolding_all decide

/-- C5 (amended): a file with exactly one author and one total commit always
has ownership clarity `clear`; its churn score is at most 2 provided the
commit lies outside the 30- and 90-day recency windows and its
apportioned insertions+deletions total at most 500 (otherwise the recency
weights and size bonuses push the score above 2). -/
theorem churn_single_commit_amended :
    ∀ (now : ℤ) (commits : List CommitInfo) (f : String) (fc : FileChurn),
      aget (analyzeFileChurn now commits) f = some fc →
      fc.authorCount = 1 → fc.totalCommits = 1 →
      (∀ o : FileOwnership,
        aget (analyzeFileOwnership (analyzeFileChurn now commits) commits) f = some o →
        o.ownershipClarity = .clear) ∧
      (fc.commitsLast30Days = 0 → fc.commitsLast90Days = 0 →
        fc.totalInsertions + fc.totalDeletions ≤ 500 → fc.churnScore ≤ 2) := by
  intro now commits f fc hget hac htc
  constructor
  · intro o ho
    rcases aget_analyzeFileOwnership.mp ho with ⟨fc2, hfc2, rfl⟩
    rw [hget] at hfc2
    have e : fc2 = fc := by injection hfc2 with e; exact e.symm
    subst e
    rcases aget_analyzeFileChurn.mp hget with ⟨fc0, h0, hfin⟩
    rcases churnRaw_author_tally h0 with ⟨al, hal, hkeys, _, _⟩
    have hlen : al.length = 1 := by
      have h1 : (akeys al).length = fc0.authors.length := by rw [hkeys]
      have h2 : fc2.authorCount = fc0.authors.length := by rw [hfin]; rfl
      simp only [akeys, List.length_map] at h1
      rw [hac] at h2
      omega
    have hfull :
        (mkContributors fc2.totalCommits
          ((aget (fileAuthorCommits commits) f).getD [])).length = 1 := by
      rw [hal, Option.getD_some, mkContributors_length, hlen]
    have hcl :=
      (clarityOf_spec (mkContributors fc2.totalCommits
        ((aget (fileAuthorCommits commits) f).getD []))).2.2
    have : (mkOwnership f fc2 ((aget (fileAuthorCommits commits) f).getD [])).ownershipClarity
        = clarityOf (mkContributors fc2.totalCommits
          ((aget (fileAuthorCommits commits) f).getD [])) := rfl
    rw [this, hcl.mpr]
    constructor
    · intro hcontra
      rw [hfull] at hcontra
      omega
    · intro hcontra
      rw [hfull] at hcontra
      omega
  · intro h30 h90 hch
    rcases aget_analyzeFileChurn.mp hget with ⟨fc0, h0, rfl⟩
    rw [finalizeChurn_churnScore, calculateChurnScore_eq_spec]
    have hform : churnSpecFormula (finalizeChurn now fc0).totalCommits
        (finalizeChurn now fc0).authorCount (finalizeChurn now fc0).commitsLast30Days
        (finalizeChurn now fc0).commitsLast90Days
        ((finalizeChurn now fc0).totalInsertions + (finalizeChurn now fc0).totalDeletions)
        ≤ ((2 : ℤ) : ℚ) := by
      rw [htc, hac, h30, h90]
      unfold churnSpecFormula
      rw [if_neg (by omega), if_neg (by omega), if_neg (by push_neg; exact hch),
        if_neg (by push_neg; linarith)]
      norm_num
    exact jsRound_le_intCast hform

def c5wcommits : List CommitInfo := [demoCommit]

def c5wnow : ℤ := 100 * msPerDay

def c5wchurn : List (String × FileChurn) := analyzeFileChurn c5wnow c5wcommits

def c5wfc : FileChurn := (aget c5wchurn "a.ts").getD default

def c5wo : FileOwnership :=
  (aget (analyzeFileOwnership c5wchurn c5wcommits) "a.ts").getD default

/-- C5 witness: the amended theorem applied to a 100-day-old single commit
with no line changes. -/
theorem churn_single_commit_amended_witness :
    c5wo.ownershipClarity = .clear ∧ c5wfc.churnScore ≤ 2 := by
  have h1 : aget (analyzeFileChurn c5wnow c5wcommits) "a.ts" = some c5wfc := by
    with_unfolding_all rfl
  have h2 : c5wfc.authorCount = 1 := by with_unfolding_all rfl
  have h3 : c5wfc.totalCommits = 1 := by with_unfolding_all rfl
  have h4 : aget (analyzeFileOwnership (analyzeFileChurn c5wnow c5wcommits) c5wcommits)
      "a.ts" = some c5wo := by with_unfolding_all rfl
  have hm := churn_single_commit_amended c5wnow c5wcommits "a.ts" c5wfc h1 h2 h3
  exact ⟨hm.1 c5wo h4,
    hm.2 (by with_unfolding_all rfl) (by with_unfolding_all rfl)
      (by with_unfolding_all decide)⟩

theorem abs_sum_jsRound_sub_sum (xs : List ℚ) :
    |(xs.map (fun x => (jsRound x : ℚ))).sum - xs.sum| ≤ (xs.length : ℚ) / 2 := by
  induction xs with
  | nil => simp
  | cons x rest ih =>
    simp only [List.map_cons, List.sum_cons, List.length_cons]
    have h1 := abs_jsRound_sub_le x
    have h2 : ((jsRound x : ℚ) + (rest.map (fun x => (jsRound x : ℚ))).sum) -
        (x + rest.sum) =
        ((jsRound x : ℚ) - x) +
          ((rest.map (fun x => (jsRound x : ℚ))).sum - rest.sum) := by ring
    rw [h2]
    have h3 := abs_add ((jsRound x : ℚ) - x)
      ((rest.map (fun x => (jsRound x : ℚ))).sum - rest.sum)
    have h4 : ((rest.length + 1 : ℕ) : ℚ) / 2 = 1/2 + (rest.length : ℚ)/2 := by
      push_cast
      ring
    rw [h4]
    exact le_trans h3 (add_le_add h1 ih)

theorem sum_jsRound_percent (counts : List ℕ) (T : ℕ) (hT : 0 < T)
    (hsum : counts.sum = T) :
    |(counts.map (fun c : ℕ => (jsRound ((c : ℚ) / (T : ℚ) * 100) : ℚ))).sum - 100| ≤
      (counts.length : ℚ) / 2 := by
  have hT0 : ((T : ℚ)) ≠ 0 := by exact_mod_cast hT.ne'
  have hx : (counts.map (fun c : ℕ => ((c : ℚ) / (T : ℚ) * 100))).sum = 100 := by
    have he : (fun c : ℕ => ((c : ℚ) / (T : ℚ) * 100)) =
        fun c : ℕ => (c : ℚ) * (100 / (T : ℚ)) := by
      funext c
      ring
    rw [he, List.sum_map_mul_right, ← Nat.cast_list_sum, hsum]
    field_simp
  have hb := abs_sum_jsRound_sub_sum
    (counts.map (fun c : ℕ => ((c : ℚ) / (T : ℚ) * 100)))
  rw [hx, List.map_map, List.length_map] at hb
  exact hb

/-- C9: for every file known to the churn aggregator, the commit counts of the
full (untruncated, sorted) contributor list built by the ownership
classifier sum to that file's `totalCommits`, and the rounded percentages
sum to 100 up to the accumulated rounding error (at most half a point per
contributor) — even though the two passes fold the commit sequence
independently. -/
theorem ownership_sums_match_churn :
    ∀ (now : ℤ) (commits : List CommitInfo) (f : String) (fc : FileChurn),
      aget (analyzeFileChurn now commits) f = some fc →
      (let full := mkContributors fc.totalCommits
        ((aget (fileAuthorCommits commits) f).getD [])
       (full.map (fun c => c.commits)).sum = fc.totalCommits ∧
         |((full.map (fun c => (c.percent : ℚ))).sum) - 100| ≤ (full.length : ℚ) / 2) := by
  intro now commits f fc hget
  rcases aget_analyzeFileChurn.mp hget with ⟨fc0, h0, rfl⟩
  rcases churnRaw_author_tally h0 with ⟨al, hal, hkeys, hsum, hpos⟩
  rw [hal, Option.getD_some]
  have htc : (finalizeChurn now fc0).totalCommits = fc0.totalCommits :=
    finalizeChurn_totalCommits now fc0
  rw [htc]
  have hcounts : (al.map (fun p => p.2.count)).sum = fc0.totalCommits := hsum
  constructor
  · rw [show (mkContributors fc0.totalCommits al).map (fun c => c.commits) =
        (sortLe (fun a b => b.commits ≤ a.commits)
          (al.map (fun p =>
            ({ author := p.1
               commits := p.2.count
               percent := jsRound ((p.2.count : ℚ) / (fc0.totalCommits : ℚ) * 100)
               lastCommit := p.2.lastCommit } : Contributor)))).map
          (fun c => c.commits) from rfl]
    rw [sortLe_map_sum_nat, List.map_map]
    exact hcounts
  · have hlen : (mkContributors fc0.totalCommits al).length = al.length :=
      mkContributors_length fc0.totalCommits al
    rw [hlen]
    rw [show (mkContributors fc0.totalCommits al).map (fun c => (c.percent : ℚ)) =
        (sortLe (fun a b => b.commits ≤ a.commits)
          (al.map (fun p =>
            ({ author := p.1
               commits := p.2.count
               percent := jsRound ((p.2.count : ℚ) / (fc0.totalCommits : ℚ) * 100)
               lastCommit := p.2.lastCommit } : Contributor)))).map
          (fun c => (c.percent : ℚ)) from rfl]
    rw [sortLe_map_sum, List.map_map]
    have hb := sum_jsRound_percent (al.map (fun p => p.2.count)) fc0.totalCommits hpos
      hcounts
    rw [List.map_map, List.length_map] at hb
    exact hb

/-- C9 witness: the sum theorem applied to the five-commit, three-author file. -/
theorem ownership_sums_match_churn_witness :
    aget c2churn "f" = some c2fc ∧
      (let full := mkContributors c2fc.totalCommits
        ((aget (fileAuthorCommits c2commits) "f").getD [])
       (full.map (fun c => c.commits)).sum = c2fc.totalCommits ∧
         |((full.map (fun c => (c.percent : ℚ))).sum) - 100| ≤ (full.length : ℚ) / 2) := by
  have h : aget (analyzeFileChurn 10 c2commits) "f" = some c2fc := by
    with_unfolding_all rfl
  exact ⟨h, ownership_sums_match_churn 10 c2commits "f" c2fc h⟩

theorem akeys_churn_fold_nodup (now : ℤ) (ps : List (CommitInfo × String)) :
    ∀ m : List (String × FileChurn), (akeys m).Nodup →
      (akeys (ps.foldl (fun m p => churnApply now m p.1 p.2) m)).Nodup := by
  induction ps with
  | nil => intro m h; exact h
  | cons p rest ih =>
    intro m h
    exact ih _ (akeys_aupsert_nodup m p.2 _ _ h)

theorem akeys_analyzeFileChurn_nodup (now : ℤ) (commits : List CommitInfo) :
    (akeys (analyzeFileChurn now commits)).Nodup := by
  unfold analyzeFileChurn
  rw [akeys_map, churnRaw_eq_pairs]
  exact akeys_churn_fold_nodup now (pairsOf commits) [] (by simp [akeys])

theorem fragileCandidates_paths_sublist (churnL : List (String × FileChurn))
    (commits : List CommitInfo) :
    ((fragileCandidates churnL commits).map (fun y => y.path)).Sublist
      (akeys churnL) := by
  unfold fragileCandidates
  induction churnL with
  | nil => simp
  | cons p rest ih =>
    rw [List.filterMap_cons, akeys_cons]
    cases he : fragileEntry ((aget (fixCommitsPerFile commits) p.1).getD 0) p.1 p.2 with
    | none => exact ih.trans (List.sublist_cons_self p.1 (akeys rest))
    | some y =>
      have hp : y.path = p.1 := (fragileEntry_recommendation _ _ _ _ he).1
      rw [List.map_cons, hp]
      exact List.Sublist.cons₂ p.1 ih

theorem fragileCandidates_paths_nodup (now : ℤ) (commits : List CommitInfo) :
    ((fragileCandidates (analyzeFileChurn now commits) commits).map
      (fun y => y.path)).Nodup :=
  (akeys_analyzeFileChurn_nodup now commits).sublist
    (fragileCandidates_paths_sublist (analyzeFileChurn now commits) commits)

/-- C10: `recentlyFragile` is carved out of the already sorted-and-capped
`fragileFiles` list: it is literally the paths of the first 10 entries of
that top-20 list with fragile score above 5; hence it has at most 10
entries, every path in it belongs to a top-20 fragile record with score
above 5, and a candidate with score above 5 is excluded whenever at least
20 candidates score strictly higher. -/
theorem recentlyFragile_rule :
    ∀ (now : ℤ) (repoPath : String) (commits : List CommitInfo),
      (mkGitHistory now repoPath commits).recentlyFragile =
        (((mkGitHistory now repoPath commits).fragileFiles.filter
          (fun y => 5 < y.fragileScore)).take 10).map (fun y => y.path) ∧
      (mkGitHistory now repoPath commits).recentlyFragile.length ≤ 10 ∧
      (∀ p ∈ (mkGitHistory now repoPath commits).recentlyFragile,
        ∃ y ∈ (mkGitHistory now repoPath commits).fragileFiles,
          y.path = p ∧ 5 < y.fragileScore) ∧
      (∀ x ∈ fragileCandidates (analyzeFileChurn now commits) commits,
        5 < x.fragileScore →
        20 ≤ (fragileCandidates (analyzeFileChurn now commits) commits).countP
          (fun y => x.fragileScore < y.fragileScore) →
        x.path ∉ (mkGitHistory now repoPath commits).recentlyFragile) := by
  intro now repoPath commits
  have hff : (mkGitHistory now repoPath commits).fragileFiles =
      identifyFragileFiles (analyzeFileChurn now commits)
        (analyzeFileOwnership (analyzeFileChurn now commits) commits) commits := rfl
  have hrf : (mkGitHistory now repoPath commits).recentlyFragile =
      (((mkGitHistory now repoPath commits).fragileFiles.filter
        (fun y => 5 < y.fragileScore)).take 10).map (fun y => y.path) := rfl
  refine ⟨hrf, ?_, ?_, ?_⟩
  · rw [hrf, List.length_map]
    exact List.length_take_le _ _
  · intro p hp
    rw [hrf] at hp
    rcases List.mem_map.mp hp with ⟨y, hy10, hypath⟩
    have hyf := List.mem_of_mem_take hy10
    rcases List.mem_filter.mp hyf with ⟨hyff, hysc⟩
    exact ⟨y, hyff, hypath, by simpa using hysc⟩
  · intro x hx hscore hcount hmem
    rw [hrf] at hmem
    rcases List.mem_map.mp hmem with ⟨y, hy10, hypath⟩
    have hyf := List.mem_of_mem_take hy10
    rcases List.mem_filter.mp hyf with ⟨hyff, _⟩
    rw [hff] at hyff
    simp only [identifyFragileFiles] at hyff
    have hycand : y ∈ fragileCandidates (analyzeFileChurn now commits) commits :=
      (sortLe_mem _ _ _).mp (List.mem_of_mem_take hyff)
    have hxy : y = x :=
      List.inj_on_of_nodup_map (fragileCandidates_paths_nodup now commits)
        hycand hx hypath
    subst hxy
    have hpairB := @sortLe_pairwise FragileFile
      (fun a b => b.fragileScore ≤ a.fragileScore)
      (fun a b c hab hbc => by
        simp only [decide_eq_true_eq] at hab hbc ⊢
        omega)
      (fun a b => by
        by_cases hab : b.fragileScore ≤ a.fragileScore
        · left; simpa using hab
        · right; simp; omega)
      (fragileCandidates (analyzeFileChurn now commits) commits)
    have hpair : (sortLe (fun a b : FragileFile => b.fragileScore ≤ a.fragileScore)
        (fragileCandidates (analyzeFileChurn now commits) commits)).Pairwise
        (fun a b => b.fragileScore ≤ a.fragileScore) :=
      hpairB.imp (fun hab => by simpa using hab)
    have hlt := countP_lt_of_mem_take (fun z : FragileFile => z.fragileScore)
      hpair hyff
    rw [sortLe_countP] at hlt
    have hlt2 : (fragileCandidates (analyzeFileChurn now commits) commits).countP
        (fun z => y.fragileScore < z.fragileScore) < 20 := hlt
    omega

def c10now : ℤ := 1000 * msPerDay

/-- C10 witness input: 21 files, each touched only by fix commits far in the
past — file `f0` by 6 of them (fragile score 6), files `f1`–`f20` by 7
(fragile score 7 each). -/
def c10commits : List CommitInfo :=
  (List.range 21).flatMap (fun i =>
    (List.range (if i = 0 then 6 else 7)).map (fun j =>
      { demoCommit with
        hash := toString i ++ "-" ++ toString j,
        filesChanged := ["f" ++ toString i], isFix := true }))

def c10cands : List FragileFile :=
  fragileCandidates (analyzeFileChurn c10now c10commits) c10commits

def c10x : FragileFile := c10cands.head?.getD default

set_option maxRecDepth 100000 in
/-- C10 witness: the exclusion theorem applied to `f0`, whose fragile score 6
exceeds 5 but which is outranked by 20 strictly higher-scoring files. -/
theorem recentlyFragile_rule_witness :
    (mkGitHistory c10now "r" c10commits).recentlyFragile.length ≤ 10 ∧
      c10x ∈ fragileCandidates (analyzeFileChurn c10now c10commits) c10commits ∧
      5 < c10x.fragileScore ∧
      20 ≤ (fragileCandidates (analyzeFileChurn c10now c10commits) c10commits).countP
        (fun y => c10x.fragileScore < y.fragileScore) ∧
      c10x.path ∉ (mkGitHistory c10now "r" c10commits).recentlyFragile := by
  have h1 : c10x ∈ fragileCandidates (analyzeFileChurn c10now c10commits) c10commits := by
    with_unfolding_all decide
  have h2 : 5 < c10x.fragileScore := by with_unfolding_all decide
  have h3 : 20 ≤ (fragileCandidates (analyzeFileChurn c10now c10commits)
      c10commits).countP (fun y => c10x.fragileScore < y.fragileScore) := by
    with_unfolding_all decide
  exact ⟨(recentlyFragile_rule c10now "r" c10commits).2.1, h1, h2, h3,
    (recentlyFragile_rule c10now "r" c10commits).2.2.2 c10x h1 h2 h3⟩
